import Mathlib

set_option maxRecDepth 8000

/-!
Shallow embedding of `railscompat.rubycore.marshal` (a Python decoder for
Ruby's Marshal 4.8 binary serialization format), together with theorems
settling the specification claims about it.

Python integers are arbitrary-precision two's-complement values, modelled by
`Int`; Python `bytes` are modelled by `List Nat` (each element `< 256`);
Python `str` values are modelled by their list of Unicode code points.
Python-level behaviours the source relies on (negative list indexing, slice
clamping, bitwise operators, strict UTF-8 decoding, `dict` insertion with
its hashability check, `base64.b64decode`) are embedded explicitly below.
-/

namespace RailsCompat

/-- Bitwise OR of the binary representations of two naturals.  The first
argument is a fuel bound (any `f ≥ a` gives the true value); the fuel makes
the recursion structural, hence kernel-reducible. -/
def orNF : Nat → Nat → Nat → Nat
  | 0, _, b => b
  | f + 1, a, b =>
    if a = 0 then b
    else if b = 0 then a
    else 2 * orNF f (a / 2) (b / 2) + max (a % 2) (b % 2)

/-- Bitwise OR on `Nat`. -/
def orN (a b : Nat) : Nat := orNF a a b

/-- Fuel-indexed bitwise AND on `Nat`. -/
def andNF : Nat → Nat → Nat → Nat
  | 0, _, _ => 0
  | f + 1, a, b =>
    if a = 0 then 0
    else if b = 0 then 0
    else 2 * andNF f (a / 2) (b / 2) + min (a % 2) (b % 2)

/-- Bitwise AND on `Nat`. -/
def andN (a b : Nat) : Nat := andNF a a b

/-- Fuel-indexed bitwise difference (`a AND NOT b`) on `Nat`. -/
def diffNF : Nat → Nat → Nat → Nat
  | 0, _, _ => 0
  | f + 1, a, b =>
    if a = 0 then 0
    else if b = 0 then a
    else 2 * diffNF f (a / 2) (b / 2) + (if a % 2 = 1 ∧ b % 2 = 0 then 1 else 0)

/-- Bitwise difference (`a AND NOT b`) on `Nat`. -/
def diffN (a b : Nat) : Nat := diffNF a a b

/-- Python's `~x` on arbitrary-precision two's-complement integers. -/
def pyNot (x : Int) : Int := -(x + 1)

/-- Python's `x | y` on arbitrary-precision two's-complement integers,
by sign cases over the standard complement identities. -/
def pyOr (x y : Int) : Int :=
  if 0 ≤ x then
    if 0 ≤ y then (orN x.toNat y.toNat : Nat)
    else pyNot (diffN (-(y + 1)).toNat x.toNat)
  else
    if 0 ≤ y then pyNot (diffN (-(x + 1)).toNat y.toNat)
    else pyNot (andN (-(x + 1)).toNat (-(y + 1)).toNat)

/-- Python's `x & y` on arbitrary-precision two's-complement integers. -/
def pyAnd (x y : Int) : Int :=
  if 0 ≤ x then
    if 0 ≤ y then (andN x.toNat y.toNat : Nat)
    else (diffN x.toNat (-(y + 1)).toNat : Nat)
  else
    if 0 ≤ y then (diffN y.toNat (-(x + 1)).toNat : Nat)
    else pyNot (orN (-(x + 1)).toNat (-(y + 1)).toNat)

/-- Python's `x << n` (arithmetic shift: multiplication by `2 ^ n`). -/
def pyShiftL (x : Int) (n : Nat) : Int := x * 2 ^ n

/-- Python list indexing `l[i]`: negative indices count from the end;
out-of-range access raises `IndexError`. -/
def pyIndex {α : Type} (l : List α) (i : Int) : Option α :=
  let j : Int := if i < 0 then i + l.length else i
  if j < 0 then none
  else l.get? j.toNat

/-- Python slicing `l[a:b]` (step 1): negative endpoints count from the end,
then both endpoints are clamped to `[0, len]`. -/
def pySlice (l : List Nat) (a b : Int) : List Nat :=
  let n : Int := l.length
  let a' := if a < 0 then max (n + a) 0 else min a n
  let b' := if b < 0 then max (n + b) 0 else min b n
  if a' < b' then (l.drop a'.toNat).take (b' - a').toNat else []

/-- Strict UTF-8 decoding of a byte sequence into code points, as performed
by Python's `bytes.decode('utf-8')`: rejects continuation-byte errors,
overlong forms, surrogates (U+D800..U+DFFF) and code points above U+10FFFF. -/
def utf8Decode : List Nat → Option (List Nat)
  | [] => some []
  | b :: t =>
    if b < 128 then (utf8Decode t).map (b :: ·)
    else if b < 194 then none
    else if b < 224 then
      match t with
      | c1 :: t1 =>
        if 128 ≤ c1 ∧ c1 < 192 then
          (utf8Decode t1).map (((b - 192) * 64 + (c1 - 128)) :: ·)
        else none
      | [] => none
    else if b < 240 then
      match t with
      | c1 :: c2 :: t2 =>
        if (if b = 224 then 160 ≤ c1 ∧ c1 < 192
            else if b = 237 then 128 ≤ c1 ∧ c1 < 160
            else 128 ≤ c1 ∧ c1 < 192) ∧ 128 ≤ c2 ∧ c2 < 192 then
          (utf8Decode t2).map
            (((b - 224) * 4096 + (c1 - 128) * 64 + (c2 - 128)) :: ·)
        else none
      | _ => none
    else if b < 245 then
      match t with
      | c1 :: c2 :: c3 :: t3 =>
        if (if b = 240 then 144 ≤ c1 ∧ c1 < 192
            else if b = 244 then 128 ≤ c1 ∧ c1 < 144
            else 128 ≤ c1 ∧ c1 < 192) ∧ 128 ≤ c2 ∧ c2 < 192 ∧
            128 ≤ c3 ∧ c3 < 192 then
          (utf8Decode t3).map
            (((b - 240) * 262144 + (c1 - 128) * 4096 + (c2 - 128) * 64 +
              (c3 - 128)) :: ·)
        else none
      | _ => none
    else none

/-- The failure modes of the decoder, one constructor per distinct Python
exception the source can raise.  The first six mirror the `RuntimeError`s
raised explicitly by `marshal.py`; the remaining constructors are the
library / interpreter exceptions its operations can raise. -/
inductive PyErr : Type
  /-- `RuntimeError` from `_read_byte`: read past the end of the buffer. -/
  | endOfData : PyErr
  /-- `RuntimeError` from `_read_bytes`: fewer than `count` bytes remain. -/
  | notEnoughData : PyErr
  /-- `RuntimeError` from `_load`: header bytes are not `{4, 8}`. -/
  | unsupportedVersion : PyErr
  /-- `RuntimeError` from `_read`: unrecognized type-tag byte. -/
  | notManagedType (b : Int) : PyErr
  /-- `RuntimeError`: a class-name slot saw a tag other than SYMBOL/SYMBOL_LINK. -/
  | expectingSymbol (b : Int) : PyErr
  /-- `RuntimeError` from `_read_symbol_link`: link index `≥` table length. -/
  | invalidSymbolLink (i : Int) : PyErr
  /-- Python `IndexError`: list index out of range (negative indexing). -/
  | indexError : PyErr
  /-- Python `TypeError`: unhashable `dict` key. -/
  | typeError : PyErr
  /-- Python `UnicodeDecodeError` from `bytes.decode` on invalid UTF-8. -/
  | unicodeDecodeError : PyErr
  /-- `binascii.Error` (a `ValueError`) from `base64.b64decode`. -/
  | binasciiError : PyErr
  /-- Python `RecursionError`: the call stack limit was exceeded.  In the
  embedding this is the fuel-exhaustion result of the totalized recursion. -/
  | recursionError : PyErr

/-- The Ruby Marshal type tags, in the declaration order of the Python
`RubyType` enum (which `from_byte` iterates in order). -/
inductive RubyType : Type
  | NONE | HASH | ARRAY | SYMBOL | SYMBOL_LINK | IVARS | STRING | INT
  | BIGNUM | NIL | TRUE | FALSE | USR_MARSHAL | EXTENDED | USERDEF
  | LINK | OBJECT

/-- The byte value of each `RubyType` enum member. -/
def RubyType.value : RubyType → Int
  | .NONE => 0
  | .HASH => 123
  | .ARRAY => 91
  | .SYMBOL => 58
  | .SYMBOL_LINK => 59
  | .IVARS => 73
  | .STRING => 34
  | .INT => 105
  | .BIGNUM => 108
  | .NIL => 48
  | .TRUE => 84
  | .FALSE => 70
  | .USR_MARSHAL => 85
  | .EXTENDED => 101
  | .USERDEF => 117
  | .LINK => 64
  | .OBJECT => 111

/-- `RubyType.from_byte`: the first enum member (declaration order) whose
value equals the byte, if any. -/
def RubyType.fromByte (b : Int) : Option RubyType :=
  if b = 0 then some .NONE
  else if b = 123 then some .HASH
  else if b = 91 then some .ARRAY
  else if b = 58 then some .SYMBOL
  else if b = 59 then some .SYMBOL_LINK
  else if b = 73 then some .IVARS
  else if b = 34 then some .STRING
  else if b = 105 then some .INT
  else if b = 108 then some .BIGNUM
  else if b = 48 then some .NIL
  else if b = 84 then some .TRUE
  else if b = 70 then some .FALSE
  else if b = 85 then some .USR_MARSHAL
  else if b = 101 then some .EXTENDED
  else if b = 117 then some .USERDEF
  else if b = 64 then some .LINK
  else if b = 111 then some .OBJECT
  else none

/-- The value model: the Python values the decoder can return.
`nil`/`bool`/`int`/`str` are Python `None`/`bool`/`int`/`str` (symbols are
plain strings carrying a leading `:`, exactly as in the source); `seq` is a
Python list, `dict` a Python dict as its insertion-ordered entry list, and
`wrapper` the `ObjectWrapper` dataclass `(ruby_type, obj, children)`. -/
inductive RValue : Type
  | nil : RValue
  | bool (b : Bool) : RValue
  | int (i : Int) : RValue
  | str (cs : List Nat) : RValue
  | seq (xs : List RValue) : RValue
  | dict (entries : List (RValue × RValue)) : RValue
  | wrapper (t : RubyType) (obj : Option RValue) (children : List RValue) : RValue

/-- Whether a decoded value is hashable in Python: `None`, `bool`, `int` and
`str` are; lists and dicts are not, and neither is `ObjectWrapper` (an
`eq=True`, non-frozen dataclass has `__hash__ = None`). -/
def pyHashable : RValue → Bool
  | .nil | .bool _ | .int _ | .str _ => true
  | .seq _ | .dict _ | .wrapper _ _ _ => false

/-- Python `==` as used on `dict` keys.  Keys reaching a comparison are
always hashable (the hashability check precedes any lookup), so only the
hashable cases matter; note Python's numeric cross-type equality
`True == 1`, `False == 0`. -/
def pyKeyEq : RValue → RValue → Bool
  | .nil, .nil => true
  | .bool a, .bool b => a == b
  | .bool a, .int n => (if a then (1 : Int) else 0) == n
  | .int m, .bool b => m == (if b then (1 : Int) else 0)
  | .int m, .int n => m == n
  | .str a, .str b => a == b
  | _, _ => false

/-- `d[k] = v` on the entry list of a Python dict with `k` known hashable:
if some stored key equals `k`, its value is replaced in place (the stored
key object is kept); otherwise the pair is appended. -/
def dictUpdate (d : List (RValue × RValue)) (k v : RValue) :
    List (RValue × RValue) :=
  match d with
  | [] => [(k, v)]
  | (k', v') :: t =>
    if pyKeyEq k' k then (k', v) :: t else (k', v') :: dictUpdate t k v

/-- `d[k] = v` on a Python dict: `TypeError` if `k` is unhashable. -/
def dictInsert (d : List (RValue × RValue)) (k v : RValue) :
    Except PyErr (List (RValue × RValue)) :=
  if pyHashable k then .ok (dictUpdate d k v) else .error .typeError

/-- The state of one `Marshal` instance: the immutable input buffer
(`_data`), the read position (`_position`, a Python int, so it can in
principle leave `[0, len]`), and the symbol table (`_symbols`). -/
structure MState : Type where
  data : List Nat
  position : Int
  symbols : List (List Nat)

namespace Marshal

open RailsCompat

/-- `Marshal.__init__`: a fresh parser state over `data`, with position `0`
and an empty symbol table. -/
def minit (data : List Nat) : MState := ⟨data, 0, []⟩

/-- `Marshal._read_byte`: fail if the position has reached the buffer end,
else fetch the byte at the current position (Python indexing) and advance by
one, reinterpreting the stored `0..255` value as a signed byte. -/
def _read_byte (s : MState) : Except PyErr (Int × MState) :=
  if s.position ≥ (s.data.length : Int) then .error .endOfData
  else
    match pyIndex s.data s.position with
    | none => .error .indexError
    | some b =>
      .ok (if b < 128 then (b : Int) else (b : Int) - 256,
           { s with position := s.position + 1 })

/-- `Marshal._read_bytes`: fail if `position + count` exceeds the buffer
length, else return the slice `data[position : position + count]` and add
`count` to the position. -/
def _read_bytes (s : MState) (count : Int) : Except PyErr (List Nat × MState) :=
  if s.position + count > (s.data.length : Int) then .error .notEnoughData
  else
    .ok (pySlice s.data s.position (s.position + count),
         { s with position := s.position + count })

/-- The loop of `_read_int`'s multi-byte positive branch:
`x |= unsigned_byte << (8 * i)` over the next `n` bytes. -/
def readIntPosLoop : Nat → Nat → Int → MState → Except PyErr (Int × MState)
  | 0, _, x, s => .ok (x, s)
  | n + 1, i, x, s => do
    let (b, s) ← _read_byte s
    let u : Int := if 0 ≤ b then b else b + 256
    readIntPosLoop n (i + 1) (pyOr x (pyShiftL u (8 * i))) s

/-- The loop of `_read_int`'s multi-byte negative branch:
`x = (x & ~(0xFF << 8 i)) | (b << 8 i)` over the next `n` bytes, with the
byte `b` kept signed. -/
def readIntNegLoop : Nat → Nat → Int → MState → Except PyErr (Int × MState)
  | 0, _, x, s => .ok (x, s)
  | n + 1, i, x, s => do
    let a := pyNot (pyShiftL 255 (8 * i))
    let (b, s) ← _read_byte s
    let b' := pyShiftL b (8 * i)
    readIntNegLoop n (i + 1) (pyOr (pyAnd x a) b') s

/-- `Marshal._read_int`: Ruby's packed-fixnum decoding, dispatching on the
leading signed byte `c`. -/
def _read_int (s : MState) : Except PyErr (Int × MState) := do
  let (c, s) ← _read_byte s
  if c = 0 then .ok (0, s)
  else if c > 4 then .ok (c - 5, s)
  else if c < -4 then .ok (c + 5, s)
  else if c > 0 then readIntPosLoop c.toNat 0 0 s
  else readIntNegLoop (-c).toNat 0 (-1) s

/-- `Marshal._read_symbol`: length, then raw bytes decoded as UTF-8 and
prefixed with `:` (just `":"` when the length is zero); the resulting text
is appended to the symbol table. -/
def _read_symbol (s : MState) : Except PyErr (List Nat × MState) := do
  let (size, s) ← _read_int s
  if size = 0 then
    .ok ([58], { s with symbols := s.symbols ++ [[58]] })
  else do
    let (bs, s) ← _read_bytes s size
    match utf8Decode bs with
    | none => .error .unicodeDecodeError
    | some cs =>
      .ok (58 :: cs, { s with symbols := s.symbols ++ [58 :: cs] })

/-- `Marshal._read_symbol_link`: an index via the integer codec; explicit
failure only when the index is `≥` the table length, after which Python list
indexing applies (so negative indices count from the end). -/
def _read_symbol_link (s : MState) : Except PyErr (List Nat × MState) := do
  let (link, s) ← _read_int s
  if link ≥ (s.symbols.length : Int) then .error (.invalidSymbolLink link)
  else
    match pyIndex s.symbols link with
    | none => .error .indexError
    | some sym => .ok (sym, s)

/-- The `SYMBOL`-or-`SYMBOL_LINK` expectation shared verbatim by
`_read_object`, `_read_userdef` and `_read_usr_marshal`: read a tag byte and
dispatch, failing on any other tag. -/
def readSymbolOrLink (s : MState) : Except PyErr (List Nat × MState) := do
  let (tb, s) ← _read_byte s
  match RubyType.fromByte tb with
  | some .SYMBOL => _read_symbol s
  | some .SYMBOL_LINK => _read_symbol_link s
  | _ => .error (.expectingSymbol tb)

/-- `Marshal._read_string`: length, raw bytes, UTF-8 decode. -/
def _read_string (s : MState) : Except PyErr (List Nat × MState) := do
  let (size, s) ← _read_int s
  let (bs, s) ← _read_bytes s size
  match utf8Decode bs with
  | none => .error .unicodeDecodeError
  | some cs => .ok (cs, s)

/-- The accumulation loop of `_read_bignum`:
`result += unsigned_byte << (i * 8)` over the payload bytes. -/
def bignumFold : List Nat → Nat → Int → Int
  | [], _, acc => acc
  | b :: t, i, acc =>
    let u : Int := if 0 ≤ (b : Int) then (b : Int) else (b : Int) + 256
    bignumFold t (i + 1) (acc + pyShiftL u (i * 8))

/-- `Marshal._read_bignum`: a sign byte (read and ignored), a length via the
integer codec, `length * 2` raw bytes, then the unsigned little-endian
reconstruction. -/
def _read_bignum (s : MState) : Except PyErr (Int × MState) := do
  let (_sign, s) ← _read_byte s
  let (length, s) ← _read_int s
  let (bs, s) ← _read_bytes s (length * 2)
  .ok (bignumFold bs 0 0, s)

/-- The element loop of `_read_array` (`result.append(self._read())`,
`size` times), parameterized by the recursive reader. -/
def readArrayLoop (rd : MState → Except PyErr (RValue × MState)) :
    Nat → MState → List RValue → Except PyErr (List RValue × MState)
  | 0, s, acc => .ok (acc, s)
  | n + 1, s, acc => do
    let (v, s) ← rd s
    readArrayLoop rd n s (acc ++ [v])

/-- `Marshal._read_array`: element count via the integer codec, then that
many recursive reads (`range` of a negative count iterates zero times). -/
def _read_array (rd : MState → Except PyErr (RValue × MState)) (s : MState) :
    Except PyErr (List RValue × MState) := do
  let (size, s) ← _read_int s
  readArrayLoop rd size.toNat s []

/-- The pair loop of `_read_hash` (`result[key] = value`, `size` times). -/
def readHashLoop (rd : MState → Except PyErr (RValue × MState)) :
    Nat → MState → List (RValue × RValue) →
    Except PyErr (List (RValue × RValue) × MState)
  | 0, s, acc => .ok (acc, s)
  | n + 1, s, acc => do
    let (k, s) ← rd s
    let (v, s) ← rd s
    match dictInsert acc k v with
    | .error e => .error e
    | .ok acc => readHashLoop rd n s acc

/-- `Marshal._read_hash`: pair count via the integer codec, then that many
key/value pairs stored into a Python dict. -/
def _read_hash (rd : MState → Except PyErr (RValue × MState)) (s : MState) :
    Except PyErr (List (RValue × RValue) × MState) := do
  let (size, s) ← _read_int s
  readHashLoop rd size.toNat s []

/-- The attribute loop of `_read_ivar`: each iteration reads a key and a
value, both discarded. -/
def readIvarLoop (rd : MState → Except PyErr (RValue × MState)) :
    Nat → MState → Except PyErr MState
  | 0, s => .ok s
  | n + 1, s => do
    let (_sym, s) ← rd s
    let (_v, s) ← rd s
    readIvarLoop rd n s

/-- `Marshal._read_ivar`: decode the payload, then an attribute count and
that many discarded attribute pairs; return the payload. -/
def _read_ivar (rd : MState → Except PyErr (RValue × MState)) (s : MState) :
    Except PyErr (RValue × MState) := do
  let (result, s) ← rd s
  let (size, s) ← _read_int s
  let s ← readIvarLoop rd size.toNat s
  .ok (result, s)

/-- The key/value child loop of `_read_object` (`wrapper.add` twice per
iteration). -/
def readPairsLoop (rd : MState → Except PyErr (RValue × MState)) :
    Nat → MState → List RValue → Except PyErr (List RValue × MState)
  | 0, s, acc => .ok (acc, s)
  | n + 1, s, acc => do
    let (k, s) ← rd s
    let (v, s) ← rd s
    readPairsLoop rd n s (acc ++ [k, v])

/-- `Marshal._read_object`: a SYMBOL/SYMBOL_LINK class name, a pair count,
then the key/value children. -/
def _read_object (rd : MState → Except PyErr (RValue × MState)) (s : MState) :
    Except PyErr (RValue × MState) := do
  let (sym, s) ← readSymbolOrLink s
  let (size, s) ← _read_int s
  let (children, s) ← readPairsLoop rd size.toNat s []
  .ok (.wrapper .OBJECT (some (.str sym)) children, s)

/-- `Marshal._read_userdef`: a SYMBOL/SYMBOL_LINK class name, a byte length,
then that many raw bytes UTF-8-decoded as the sole child. -/
def _read_userdef (s : MState) : Except PyErr (RValue × MState) := do
  let (sym, s) ← readSymbolOrLink s
  let (size, s) ← _read_int s
  let (bs, s) ← _read_bytes s size
  match utf8Decode bs with
  | none => .error .unicodeDecodeError
  | some cs => .ok (.wrapper .USERDEF (some (.str sym)) [.str cs], s)

/-- `Marshal._read_usr_marshal`: a SYMBOL/SYMBOL_LINK class name, then one
recursively decoded value as the sole child. -/
def _read_usr_marshal (rd : MState → Except PyErr (RValue × MState))
    (s : MState) : Except PyErr (RValue × MState) := do
  let (sym, s) ← readSymbolOrLink s
  let (obj, s) ← rd s
  .ok (.wrapper .USR_MARSHAL (some (.str sym)) [obj], s)

/-- `Marshal._read_extended`: an empty `EXTENDED` wrapper, nothing read. -/
def _read_extended (s : MState) : Except PyErr (RValue × MState) :=
  .ok (.wrapper .EXTENDED none [], s)

/-- `Marshal._read_link`: an index via the integer codec, wrapped raw. -/
def _read_link (s : MState) : Except PyErr (RValue × MState) := do
  let (link, s) ← _read_int s
  .ok (.wrapper .LINK (some (.int link)) [], s)

/-- `Marshal._read`: the recursive-descent dispatcher.  The `Nat` argument
is the remaining recursion depth (Python's call-stack limit); exhausting it
models `RecursionError`.  Each production that decodes nested values does so
through the dispatcher one level deeper, exactly as the source's `self._read`
calls do. -/
def _read : Nat → MState → Except PyErr (RValue × MState)
  | 0, _ => .error .recursionError
  | fuel + 1, s => do
    let (tb, s) ← _read_byte s
    match RubyType.fromByte tb with
    | none => .error (.notManagedType tb)
    | some t =>
      match t with
      | .NIL => .ok (.nil, s)
      | .TRUE => .ok (.bool true, s)
      | .FALSE => .ok (.bool false, s)
      | .INT => do
        let (i, s) ← _read_int s
        .ok (.int i, s)
      | .BIGNUM => do
        let (i, s) ← _read_bignum s
        .ok (.int i, s)
      | .HASH => do
        let (d, s) ← _read_hash (fun st => _read fuel st) s
        .ok (.dict d, s)
      | .ARRAY => do
        let (xs, s) ← _read_array (fun st => _read fuel st) s
        .ok (.seq xs, s)
      | .STRING => do
        let (cs, s) ← _read_string s
        .ok (.str cs, s)
      | .IVARS => _read_ivar (fun st => _read fuel st) s
      | .SYMBOL => do
        let (sym, s) ← _read_symbol s
        .ok (.str sym, s)
      | .SYMBOL_LINK => do
        let (sym, s) ← _read_symbol_link s
        .ok (.str sym, s)
      | .USR_MARSHAL => _read_usr_marshal (fun st => _read fuel st) s
      | .EXTENDED => _read_extended s
      | .USERDEF => _read_userdef s
      | .LINK => _read_link s
      | .OBJECT => _read_object (fun st => _read fuel st) s
      | .NONE => .error (.notManagedType tb)

/-- `Marshal._load`: require the two version bytes `4`, `8` (Python's `and`
short-circuits, so the second byte is only read when the first is `4`), then
one top-level value.  The final instance state is returned alongside the
value, the instance's fields being observable state during the call. -/
def _load (fuel : Nat) (s : MState) : Except PyErr (RValue × MState) := do
  let (b1, s) ← _read_byte s
  if b1 = 4 then do
    let (b2, s) ← _read_byte s
    if b2 = 8 then _read fuel s
    else .error .unsupportedVersion
  else .error .unsupportedVersion

/-- `Marshal.load`: a fresh instance over `data`, then `_load`. -/
def load (fuel : Nat) (data : List Nat) : Except PyErr RValue :=
  (_load fuel (minit data)).map (·.1)

/-- The value of a standard base64-alphabet character, if any. -/
def b64Char (c : Nat) : Option Nat :=
  if 65 ≤ c ∧ c ≤ 90 then some (c - 65)
  else if 97 ≤ c ∧ c ≤ 122 then some (c - 71)
  else if 48 ≤ c ∧ c ≤ 57 then some (c + 4)
  else if c = 43 then some 62
  else if c = 47 then some 63
  else none

/-- The scanning loop of `base64.b64decode` in its default non-strict mode:
characters outside the alphabet are skipped (without touching the pad
count); `=` counts as padding only at quad positions `≥ 2`, and decoding
stops once padding completes a quad; every valid data character resets the
pad count to zero, so pads separated by further data do not accumulate; a
stream ending at quad position `1` ("number of data characters cannot be 1
more than a multiple of 4") or `≥ 2` ("incorrect padding") is an error.
Arguments: input, quad position, pending bits, pads seen, output bytes. -/
def b64Loop : List Nat → Nat → Nat → Nat → List Nat → Except PyErr (List Nat)
  | [], qp, _, _, acc => if qp = 0 then .ok acc else .error .binasciiError
  | c :: t, qp, lc, pads, acc =>
    if c = 61 then
      if 2 ≤ qp then
        if 4 ≤ qp + (pads + 1) then .ok acc
        else b64Loop t qp lc (pads + 1) acc
      else b64Loop t qp lc pads acc
    else
      match b64Char c with
      | none => b64Loop t qp lc pads acc
      | some d =>
        match qp with
        | 0 => b64Loop t 1 d 0 acc
        | 1 => b64Loop t 2 (d % 16) 0 (acc ++ [lc * 4 + d / 16])
        | 2 => b64Loop t 3 (d % 4) 0 (acc ++ [lc * 16 + d / 4])
        | _ => b64Loop t 0 0 0 (acc ++ [lc * 64 + d])

/-- `base64.b64decode` applied to a `str` argument: the text is first
encoded as ASCII (non-ASCII raises a `ValueError`, folded here into the
`binascii.Error` constructor, itself a `ValueError`), then scanned. -/
def b64decode (text : List Nat) : Except PyErr (List Nat) :=
  if text.all (· < 128) then b64Loop text 0 0 0 [] else .error .binasciiError

/-- `Marshal.load_b64`: base64-decode the text, then `load` the bytes. -/
def load_b64 (fuel : Nat) (text : List Nat) : Except PyErr RValue := do
  let data ← b64decode text
  (_load fuel (minit data)).map (·.1)

end Marshal

/-! ### Arithmetic facts about the bitwise helpers -/

theorem orNF_zero_left (f b : Nat) : orNF f 0 b = b := by
  cases f <;> simp [orNF]

theorem orNF_congr (f : Nat) : ∀ g a b, a ≤ f → a ≤ g → orNF f a b = orNF g a b := by
  induction f with
  | zero =>
    intro g a b hf _
    have ha : a = 0 := by omega
    subst ha
    simp [orNF, orNF_zero_left]
  | succ f ih =>
    intro g a b hf hg
    by_cases ha : a = 0
    · subst ha; simp [orNF_zero_left]
    · obtain ⟨g', rfl⟩ : ∃ g', g = g' + 1 := ⟨g - 1, by omega⟩
      by_cases hb : b = 0
      · subst hb; simp [orNF, ha]
      · simp only [orNF, if_neg ha, if_neg hb]
        have h2 : a / 2 ≤ f := by
          have := Nat.div_lt_self (Nat.pos_of_ne_zero ha) (by norm_num : 1 < 2)
          omega
        have h2' : a / 2 ≤ g' := by
          have := Nat.div_lt_self (Nat.pos_of_ne_zero ha) (by norm_num : 1 < 2)
          omega
        rw [ih g' (a / 2) (b / 2) h2 h2']

theorem orN_zero_left (b : Nat) : orN 0 b = b := rfl

theorem orN_zero_right (a : Nat) : orN a 0 = a := by
  cases a <;> simp [orN, orNF]

theorem orN_step (a b : Nat) :
    orN a b = 2 * orN (a / 2) (b / 2) + max (a % 2) (b % 2) := by
  by_cases ha : a = 0
  · subst ha
    simp only [orN_zero_left, Nat.zero_div, Nat.zero_mod, orN_zero_left]
    omega
  · by_cases hb : b = 0
    · subst hb
      simp only [orN_zero_right, Nat.zero_div, Nat.zero_mod]
      omega
    · obtain ⟨f, rfl⟩ : ∃ f, a = f + 1 := ⟨a - 1, by omega⟩
      show orNF (f + 1) (f + 1) b = _
      simp only [orNF, if_neg ha, if_neg hb]
      have h2 : (f + 1) / 2 ≤ f := by omega
      rw [orNF_congr f ((f + 1) / 2) ((f + 1) / 2) (b / 2) h2 le_rfl]
      rfl

theorem andNF_zero_left (f b : Nat) : andNF f 0 b = 0 := by
  cases f <;> simp [andNF]

theorem andNF_congr (f : Nat) : ∀ g a b, a ≤ f → a ≤ g → andNF f a b = andNF g a b := by
  induction f with
  | zero =>
    intro g a b hf _
    have ha : a = 0 := by omega
    subst ha
    simp [andNF, andNF_zero_left]
  | succ f ih =>
    intro g a b hf hg
    by_cases ha : a = 0
    · subst ha; simp [andNF_zero_left]
    · obtain ⟨g', rfl⟩ : ∃ g', g = g' + 1 := ⟨g - 1, by omega⟩
      by_cases hb : b = 0
      · subst hb; simp [andNF, ha]
      · simp only [andNF, if_neg ha, if_neg hb]
        have h2 : a / 2 ≤ f := by
          have := Nat.div_lt_self (Nat.pos_of_ne_zero ha) (by norm_num : 1 < 2)
          omega
        have h2' : a / 2 ≤ g' := by
          have := Nat.div_lt_self (Nat.pos_of_ne_zero ha) (by norm_num : 1 < 2)
          omega
        rw [ih g' (a / 2) (b / 2) h2 h2']

theorem andN_zero_left (b : Nat) : andN 0 b = 0 := rfl

theorem andN_zero_right (a : Nat) : andN a 0 = 0 := by
  cases a <;> simp [andN, andNF]

theorem andN_step (a b : Nat) :
    andN a b = 2 * andN (a / 2) (b / 2) + min (a % 2) (b % 2) := by
  by_cases ha : a = 0
  · subst ha
    simp only [andN_zero_left, Nat.zero_div, Nat.zero_mod, andN_zero_left]
    omega
  · by_cases hb : b = 0
    · subst hb
      simp only [andN_zero_right, Nat.zero_div, Nat.zero_mod]
      omega
    · obtain ⟨f, rfl⟩ : ∃ f, a = f + 1 := ⟨a - 1, by omega⟩
      show andNF (f + 1) (f + 1) b = _
      simp only [andNF, if_neg ha, if_neg hb]
      have h2 : (f + 1) / 2 ≤ f := by omega
      rw [andNF_congr f ((f + 1) / 2) ((f + 1) / 2) (b / 2) h2 le_rfl]
      rfl

theorem diffNF_zero_left (f b : Nat) : diffNF f 0 b = 0 := by
  cases f <;> simp [diffNF]

theorem diffNF_congr (f : Nat) : ∀ g a b, a ≤ f → a ≤ g → diffNF f a b = diffNF g a b := by
  induction f with
  | zero =>
    intro g a b hf _
    have ha : a = 0 := by omega
    subst ha
    simp [diffNF, diffNF_zero_left]
  | succ f ih =>
    intro g a b hf hg
    by_cases ha : a = 0
    · subst ha; simp [diffNF_zero_left]
    · obtain ⟨g', rfl⟩ : ∃ g', g = g' + 1 := ⟨g - 1, by omega⟩
      by_cases hb : b = 0
      · subst hb; simp [diffNF, ha]
      · simp only [diffNF, if_neg ha, if_neg hb]
        have h2 : a / 2 ≤ f := by
          have := Nat.div_lt_self (Nat.pos_of_ne_zero ha) (by norm_num : 1 < 2)
          omega
        have h2' : a / 2 ≤ g' := by
          have := Nat.div_lt_self (Nat.pos_of_ne_zero ha) (by norm_num : 1 < 2)
          omega
        rw [ih g' (a / 2) (b / 2) h2 h2']

theorem diffN_zero_left (b : Nat) : diffN 0 b = 0 := rfl

theorem diffN_zero_right (a : Nat) : diffN a 0 = a := by
  cases a <;> simp [diffN, diffNF]

theorem diffN_step (a b : Nat) :
    diffN a b = 2 * diffN (a / 2) (b / 2) +
      (if a % 2 = 1 ∧ b % 2 = 0 then 1 else 0) := by
  by_cases ha : a = 0
  · subst ha
    simp [diffN_zero_left]
  · by_cases hb : b = 0
    · subst hb
      simp only [Nat.zero_div, diffN_zero_right, Nat.zero_mod]
      rcases Nat.mod_two_eq_zero_or_one a with h | h <;> simp [h] <;> omega
    · obtain ⟨f, rfl⟩ : ∃ f, a = f + 1 := ⟨a - 1, by omega⟩
      show diffNF (f + 1) (f + 1) b = _
      simp only [diffNF, if_neg ha, if_neg hb]
      have h2 : (f + 1) / 2 ≤ f := by omega
      rw [diffNF_congr f ((f + 1) / 2) ((f + 1) / 2) (b / 2) h2 le_rfl]
      rfl

theorem orN_window (k : Nat) : ∀ a b c d : Nat, a < 2 ^ k → b < 2 ^ k →
    orN (a + c * 2 ^ k) (b + d * 2 ^ k) = orN a b + orN c d * 2 ^ k := by
  induction k with
  | zero =>
    intro a b c d ha hb
    have ha0 : a = 0 := by omega
    have hb0 : b = 0 := by omega
    subst ha0; subst hb0
    simp [orN_zero_left]
  | succ k ih =>
    intro a b c d ha hb
    have h2 : (2 : Nat) ^ (k + 1) = 2 * 2 ^ k := by ring
    rw [h2] at ha hb ⊢
    have e1 : a + c * (2 * 2 ^ k) = a + 2 * (c * 2 ^ k) := by ring
    have e2 : b + d * (2 * 2 ^ k) = b + 2 * (d * 2 ^ k) := by ring
    rw [e1, e2, orN_step (a + 2 * (c * 2 ^ k)) (b + 2 * (d * 2 ^ k)), orN_step a b]
    have d1 : (a + 2 * (c * 2 ^ k)) / 2 = a / 2 + c * 2 ^ k := by omega
    have d2 : (b + 2 * (d * 2 ^ k)) / 2 = b / 2 + d * 2 ^ k := by omega
    have m1 : (a + 2 * (c * 2 ^ k)) % 2 = a % 2 := by omega
    have m2 : (b + 2 * (d * 2 ^ k)) % 2 = b % 2 := by omega
    rw [d1, d2, m1, m2, ih (a / 2) (b / 2) c d (by omega) (by omega)]
    ring

theorem andN_window (k : Nat) : ∀ a b c d : Nat, a < 2 ^ k → b < 2 ^ k →
    andN (a + c * 2 ^ k) (b + d * 2 ^ k) = andN a b + andN c d * 2 ^ k := by
  induction k with
  | zero =>
    intro a b c d ha hb
    have ha0 : a = 0 := by omega
    have hb0 : b = 0 := by omega
    subst ha0; subst hb0
    simp [andN_zero_left]
  | succ k ih =>
    intro a b c d ha hb
    have h2 : (2 : Nat) ^ (k + 1) = 2 * 2 ^ k := by ring
    rw [h2] at ha hb ⊢
    have e1 : a + c * (2 * 2 ^ k) = a + 2 * (c * 2 ^ k) := by ring
    have e2 : b + d * (2 * 2 ^ k) = b + 2 * (d * 2 ^ k) := by ring
    rw [e1, e2, andN_step (a + 2 * (c * 2 ^ k)) (b + 2 * (d * 2 ^ k)), andN_step a b]
    have d1 : (a + 2 * (c * 2 ^ k)) / 2 = a / 2 + c * 2 ^ k := by omega
    have d2 : (b + 2 * (d * 2 ^ k)) / 2 = b / 2 + d * 2 ^ k := by omega
    have m1 : (a + 2 * (c * 2 ^ k)) % 2 = a % 2 := by omega
    have m2 : (b + 2 * (d * 2 ^ k)) % 2 = b % 2 := by omega
    rw [d1, d2, m1, m2, ih (a / 2) (b / 2) c d (by omega) (by omega)]
    ring

theorem diffN_window (k : Nat) : ∀ a b c d : Nat, a < 2 ^ k → b < 2 ^ k →
    diffN (a + c * 2 ^ k) (b + d * 2 ^ k) = diffN a b + diffN c d * 2 ^ k := by
  induction k with
  | zero =>
    intro a b c d ha hb
    have ha0 : a = 0 := by omega
    have hb0 : b = 0 := by omega
    subst ha0; subst hb0
    simp [diffN_zero_left]
  | succ k ih =>
    intro a b c d ha hb
    have h2 : (2 : Nat) ^ (k + 1) = 2 * 2 ^ k := by ring
    rw [h2] at ha hb ⊢
    have e1 : a + c * (2 * 2 ^ k) = a + 2 * (c * 2 ^ k) := by ring
    have e2 : b + d * (2 * 2 ^ k) = b + 2 * (d * 2 ^ k) := by ring
    rw [e1, e2, diffN_step (a + 2 * (c * 2 ^ k)) (b + 2 * (d * 2 ^ k)), diffN_step a b]
    have d1 : (a + 2 * (c * 2 ^ k)) / 2 = a / 2 + c * 2 ^ k := by omega
    have d2 : (b + 2 * (d * 2 ^ k)) / 2 = b / 2 + d * 2 ^ k := by omega
    have m1 : (a + 2 * (c * 2 ^ k)) % 2 = a % 2 := by omega
    have m2 : (b + 2 * (d * 2 ^ k)) % 2 = b % 2 := by omega
    rw [d1, d2, m1, m2, ih (a / 2) (b / 2) c d (by omega) (by omega)]
    ring

theorem orN_disjoint (k a c : Nat) (ha : a < 2 ^ k) :
    orN a (c * 2 ^ k) = a + c * 2 ^ k := by
  have h := orN_window k a 0 0 c ha (by positivity)
  simpa [orN_zero_left, orN_zero_right] using h

theorem andN_ones_left (j : Nat) : ∀ b : Nat, b < 2 ^ j → andN (2 ^ j - 1) b = b := by
  induction j with
  | zero =>
    intro b hb
    have hb0 : b = 0 := by omega
    subst hb0
    simp [andN_zero_left]
  | succ j ih =>
    intro b hb
    have hP : (0 : Nat) < 2 ^ j := by positivity
    have h2 : (2 : Nat) ^ (j + 1) = 2 * 2 ^ j := by ring
    rw [h2] at hb ⊢
    rw [andN_step]
    have d1 : (2 * 2 ^ j - 1) / 2 = 2 ^ j - 1 := by omega
    have m1 : (2 * 2 ^ j - 1) % 2 = 1 := by omega
    rw [d1, m1, ih (b / 2) (by omega)]
    have := Nat.mod_two_eq_zero_or_one b
    omega

theorem andN_ones_right (j : Nat) : ∀ a : Nat, a < 2 ^ j → andN a (2 ^ j - 1) = a := by
  induction j with
  | zero =>
    intro a ha
    have ha0 : a = 0 := by omega
    subst ha0
    simp [andN_zero_right]
  | succ j ih =>
    intro a ha
    have hP : (0 : Nat) < 2 ^ j := by positivity
    have h2 : (2 : Nat) ^ (j + 1) = 2 * 2 ^ j := by ring
    rw [h2] at ha ⊢
    rw [andN_step]
    have d1 : (2 * 2 ^ j - 1) / 2 = 2 ^ j - 1 := by omega
    have m1 : (2 * 2 ^ j - 1) % 2 = 1 := by omega
    rw [d1, m1, ih (a / 2) (by omega)]
    have := Nat.mod_two_eq_zero_or_one a
    omega

theorem diffN_ones_left (j : Nat) : ∀ b : Nat, b < 2 ^ j →
    diffN (2 ^ j - 1) b = 2 ^ j - 1 - b := by
  induction j with
  | zero =>
    intro b hb
    have hb0 : b = 0 := by omega
    subst hb0
    simp [diffN_zero_left]
  | succ j ih =>
    intro b hb
    have hP : (0 : Nat) < 2 ^ j := by positivity
    have h2 : (2 : Nat) ^ (j + 1) = 2 * 2 ^ j := by ring
    rw [h2] at hb ⊢
    rw [diffN_step]
    have d1 : (2 * 2 ^ j - 1) / 2 = 2 ^ j - 1 := by omega
    have m1 : (2 * 2 ^ j - 1) % 2 = 1 := by omega
    rw [d1, m1, ih (b / 2) (by omega)]
    have := Nat.mod_two_eq_zero_or_one b
    split_ifs with h <;> omega

/-- The byte-window clearing performed by `x & ~(0xFF << k)` inside the
negative multi-byte branch, at the `Nat` level of the two's-complement
encoding. -/
theorem diffN_byte_window (k S b : Nat) (hS : S < 2 ^ k) (hb : b < 256) :
    diffN (2 ^ k * 256 - 1 - S) (b * 2 ^ k) = 2 ^ k * 256 - 1 - S - b * 2 ^ k := by
  have hbP : b * 2 ^ k ≤ 255 * 2 ^ k := Nat.mul_le_mul_right _ (by omega)
  have hP : (0 : Nat) < 2 ^ k := by positivity
  have h1 : 2 ^ k * 256 - 1 - S = (2 ^ k - 1 - S) + 255 * 2 ^ k := by omega
  rw [h1, show b * 2 ^ k = 0 + b * 2 ^ k from (Nat.zero_add _).symm,
    diffN_window k _ 0 255 b (by omega) hP, diffN_zero_right]
  have h255 : diffN 255 b = 255 - b := by
    have := diffN_ones_left 8 b (by omega)
    norm_num at this
    exact this
  rw [h255, Nat.sub_mul]
  omega

/-- The combined window fact used by `(x & mask) | (b << k)` when the byte
is stored sign-extended (`b ≥ 128`), at the `Nat` level. -/
theorem andN_byte_window (k S u : Nat) (hS : S < 2 ^ k) (hu : u < 256) :
    andN (2 ^ k * 256 - 1 - S) ((256 - u) * 2 ^ k - 1) =
      (2 ^ k - 1 - S) + (255 - u) * 2 ^ k := by
  have hP : (0 : Nat) < 2 ^ k := by positivity
  have huP : u * 2 ^ k ≤ 255 * 2 ^ k := Nat.mul_le_mul_right _ (by omega)
  have h1 : 2 ^ k * 256 - 1 - S = (2 ^ k - 1 - S) + 255 * 2 ^ k := by omega
  have h2 : (256 - u) * 2 ^ k - 1 = (2 ^ k - 1) + (255 - u) * 2 ^ k := by
    rw [Nat.sub_mul, Nat.sub_mul]
    omega
  rw [h1, h2, andN_window k _ _ 255 (255 - u) (by omega) (by omega),
    andN_ones_right k _ (by omega)]
  have h255 : andN 255 (255 - u) = 255 - u := by
    have := andN_ones_left 8 (255 - u) (by omega)
    norm_num at this
    exact this
  rw [h255]

/-- The little-endian byte sum `Σ bytes_j · 256 ^ (i + j)`, the value
reconstructed by the multi-byte loops. -/
def leSumAt : List Nat → Nat → Int
  | [], _ => 0
  | b :: t, i => (b : Int) * 2 ^ (8 * i) + leSumAt t (i + 1)

theorem leSumAt_nonneg : ∀ (bs : List Nat) (i : Nat), 0 ≤ leSumAt bs i := by
  intro bs
  induction bs with
  | nil => intro i; simp [leSumAt]
  | cons b t ih =>
    intro i
    have h1 : (0 : Int) ≤ (b : Int) * 2 ^ (8 * i) := by positivity
    have h2 := ih (i + 1)
    simp only [leSumAt]
    omega

theorem leSumAt_bounds : ∀ (bs : List Nat) (i : Nat), (∀ b ∈ bs, b < 256) →
    0 ≤ leSumAt bs i ∧ leSumAt bs i ≤ 2 ^ (8 * (i + bs.length)) - 2 ^ (8 * i) := by
  intro bs
  induction bs with
  | nil =>
    intro i _
    simp [leSumAt]
  | cons b t ih =>
    intro i hb
    obtain ⟨iht0, iht⟩ := ih (i + 1) (fun x hx => hb x (List.mem_cons_of_mem _ hx))
    have hblt : b < 256 := hb b (List.mem_cons_self b t)
    have hA : (0 : Int) < 2 ^ (8 * i) := by positivity
    have hC : (2 : Int) ^ (8 * (i + 1)) = 256 * 2 ^ (8 * i) := by
      have h8 : 8 * (i + 1) = 8 * i + 8 := by ring
      rw [h8, pow_add]
      norm_num
      ring
    have hE : 8 * (i + (b :: t).length) = 8 * (i + 1 + t.length) := by
      simp [List.length_cons]
      ring
    have hbb : (b : Int) * 2 ^ (8 * i) ≤ 255 * 2 ^ (8 * i) := by
      have hb255 : (b : Int) ≤ 255 := by exact_mod_cast Nat.le_of_lt_succ hblt
      exact mul_le_mul_of_nonneg_right hb255 (by positivity)
    have hb0 : (0 : Int) ≤ (b : Int) * 2 ^ (8 * i) := by positivity
    simp only [leSumAt, hE]
    rw [hC] at iht
    omega

namespace Marshal

/-- Reading one byte at position `pre.length` of `pre ++ b :: rest`. -/
theorem read_byte_frame (pre : List Nat) (b : Nat) (rest : List Nat)
    (syms : List (List Nat)) :
    _read_byte ⟨pre ++ b :: rest, (pre.length : Int), syms⟩ =
      .ok (if b < 128 then (b : Int) else (b : Int) - 256,
           ⟨pre ++ b :: rest, (pre.length : Int) + 1, syms⟩) := by
  have hlen : (pre ++ b :: rest).length = pre.length + (rest.length + 1) := by
    simp [List.length_append]
  simp only [_read_byte, pyIndex, hlen]
  rw [if_neg (by push_cast; omega), if_neg (by push_cast; omega),
    if_neg (by push_cast; omega)]
  have ht : ((pre.length : Int)).toNat = pre.length := rfl
  rw [ht]
  have hg : (pre ++ b :: rest).get? pre.length = some b := by
    rw [List.get?_eq_getElem?, List.getElem?_append_right (le_refl _)]
    simp
  rw [hg]

/-- Reading `mid.length` bytes at position `pre.length` of
`pre ++ mid ++ rest`. -/
theorem read_bytes_frame (pre mid rest : List Nat) (syms : List (List Nat)) :
    _read_bytes ⟨pre ++ mid ++ rest, (pre.length : Int), syms⟩ (mid.length : Int) =
      .ok (mid, ⟨pre ++ mid ++ rest, (pre.length : Int) + mid.length, syms⟩) := by
  have hlen : (pre ++ mid ++ rest).length = pre.length + mid.length + rest.length := by
    rw [List.length_append, List.length_append]
  simp only [_read_bytes, pySlice, hlen]
  have hc1 : ¬ ((pre.length : Int) + (mid.length : Int)
      > ((pre.length + mid.length + rest.length : Nat) : Int)) := by
    push_cast
    omega
  have hc2 : ¬ ((pre.length : Int) < 0) := by push_cast; omega
  have hc3 : ¬ ((pre.length : Int) + (mid.length : Int) < 0) := by push_cast; omega
  rw [if_neg hc1, if_neg hc2, if_neg hc3]
  have hmin1 : min ((pre.length : Int)) ((pre.length + mid.length + rest.length : Nat) : Int)
      = (pre.length : Int) := by
    rw [min_eq_left]
    push_cast
    omega
  have hmin2 : min ((pre.length : Int) + (mid.length : Int))
      ((pre.length + mid.length + rest.length : Nat) : Int)
      = (pre.length : Int) + (mid.length : Int) := by
    rw [min_eq_left]
    push_cast
    omega
  rw [hmin1, hmin2]
  rcases Nat.eq_zero_or_pos mid.length with hm | hm
  · have hc4 : ¬ ((pre.length : Int) < (pre.length : Int) + (mid.length : Int)) := by
      push_cast
      omega
    rw [if_neg hc4]
    have hmid : mid = [] := List.length_eq_zero.mp hm
    rw [hmid]
  · have hc4 : (pre.length : Int) < (pre.length : Int) + (mid.length : Int) := by
      push_cast
      omega
    rw [if_pos hc4]
    have ht1 : ((pre.length : Int)).toNat = pre.length := rfl
    have ht2 : ((pre.length : Int) + (mid.length : Int) - (pre.length : Int)).toNat
        = mid.length := by
      have he : (pre.length : Int) + (mid.length : Int) - (pre.length : Int)
          = (mid.length : Int) := by ring
      rw [he]
      rfl
    rw [ht1, ht2, List.append_assoc, List.drop_left, List.take_left]

end Marshal

/-! ### The bitwise identities behind the two multi-byte integer loops -/

theorem pyOr_disjoint (x : Int) (b k : Nat) (hx0 : 0 ≤ x)
    (hxlt : x < (2 : Int) ^ k) :
    pyOr x ((b : Int) * 2 ^ k) = x + (b : Int) * 2 ^ k := by
  have hy0 : (0 : Int) ≤ (b : Int) * 2 ^ k := by positivity
  have hc : ((2 ^ k : Nat) : Int) = (2 : Int) ^ k := by push_cast; ring
  unfold pyOr
  rw [if_pos hx0, if_pos hy0]
  have hyc : ((b : Int) * 2 ^ k) = ((b * 2 ^ k : Nat) : Int) := by push_cast; ring
  rw [hyc]
  have ht : ((b * 2 ^ k : Nat) : Int).toNat = b * 2 ^ k := rfl
  rw [ht, orN_disjoint k x.toNat b (by omega)]
  push_cast
  omega

/-- `x & ~(0xFF << k)` on the running value `S - 2 ^ k` of the negative
multi-byte loop clears the next byte window. -/
theorem pyAnd_mask (k S : Nat) (hS : S < 2 ^ k) :
    pyAnd ((S : Int) - (2 : Int) ^ k) (pyNot (pyShiftL 255 k)) =
      (S : Int) - (2 : Int) ^ k * 256 := by
  have hc : ((2 ^ k : Nat) : Int) = (2 : Int) ^ k := by push_cast; ring
  simp only [pyShiftL, pyNot, pyAnd]
  rw [if_neg (by rw [← hc]; omega : ¬ (0 : Int) ≤ (S : Int) - (2 : Int) ^ k),
    if_neg (by rw [← hc]; omega : ¬ (0 : Int) ≤ -(255 * (2 : Int) ^ k + 1))]
  have e1 : (-(((S : Int) - (2 : Int) ^ k) + 1)).toNat = 2 ^ k - 1 - S := by
    rw [← hc]; omega
  have e2 : (-(-(255 * (2 : Int) ^ k + 1) + 1)).toNat = 255 * 2 ^ k := by
    rw [← hc]; omega
  rw [e1, e2, orN_disjoint k (2 ^ k - 1 - S) 255 (by omega)]
  rw [← hc]
  omega

/-- ORing a nonnegative shifted byte into the masked value. -/
theorem pyOr_negwin_pos (k S b : Nat) (hS : S < 2 ^ k) (hb : b < 128) :
    pyOr ((S : Int) - (2 : Int) ^ k * 256) ((b : Int) * (2 : Int) ^ k) =
      ((S + b * 2 ^ k : Nat) : Int) - (2 : Int) ^ k * 256 := by
  have hc : ((2 ^ k : Nat) : Int) = (2 : Int) ^ k := by push_cast; ring
  have hbP : b * 2 ^ k ≤ 255 * 2 ^ k := Nat.mul_le_mul_right _ (by omega)
  have hy0 : (0 : Int) ≤ (b : Int) * (2 : Int) ^ k := by positivity
  unfold pyOr
  rw [if_neg (by rw [← hc]; omega : ¬ (0 : Int) ≤ (S : Int) - (2 : Int) ^ k * 256),
    if_pos hy0]
  have e1 : (-(((S : Int) - (2 : Int) ^ k * 256) + 1)).toNat = 2 ^ k * 256 - 1 - S := by
    rw [← hc]; omega
  have hyc : ((b : Int) * (2 : Int) ^ k) = ((b * 2 ^ k : Nat) : Int) := by
    push_cast; ring
  have e2 : ((b * 2 ^ k : Nat) : Int).toNat = b * 2 ^ k := rfl
  rw [e1, hyc, e2, diffN_byte_window k S b hS (by omega)]
  simp only [pyNot]
  rw [← hc]
  omega

/-- ORing a negative (sign-extended) shifted byte into the masked value. -/
theorem pyOr_negwin_neg (k S b : Nat) (hS : S < 2 ^ k) (hb1 : 128 ≤ b)
    (hb2 : b < 256) :
    pyOr ((S : Int) - (2 : Int) ^ k * 256) (((b : Int) - 256) * (2 : Int) ^ k) =
      ((S + b * 2 ^ k : Nat) : Int) - (2 : Int) ^ k * 256 := by
  have hc : ((2 ^ k : Nat) : Int) = (2 : Int) ^ k := by push_cast; ring
  have hbP : b * 2 ^ k ≤ 255 * 2 ^ k := Nat.mul_le_mul_right _ (by omega)
  have hP : (0 : Int) < (2 : Int) ^ k := by positivity
  have hy0 : ¬ (0 : Int) ≤ ((b : Int) - 256) * (2 : Int) ^ k := by
    have hneg : ((b : Int) - 256) < 0 := by omega
    have := mul_neg_of_neg_of_pos hneg hP
    omega
  unfold pyOr
  rw [if_neg (by rw [← hc]; omega : ¬ (0 : Int) ≤ (S : Int) - (2 : Int) ^ k * 256),
    if_neg hy0]
  have e1 : (-(((S : Int) - (2 : Int) ^ k * 256) + 1)).toNat = 2 ^ k * 256 - 1 - S := by
    rw [← hc]; omega
  have hyc : (((b : Int) - 256) * (2 : Int) ^ k) =
      -(((256 - b) * 2 ^ k : Nat) : Int) := by
    push_cast [Nat.cast_sub (by omega : b ≤ 256)]
    ring
  have e2 : (-((-(((256 - b) * 2 ^ k : Nat) : Int)) + 1)).toNat =
      (256 - b) * 2 ^ k - 1 := by omega
  rw [e1, hyc, e2, andN_byte_window k S b hS hb2]
  simp only [pyNot]
  have hfin : ((2 ^ k - 1 - S) + (255 - b) * 2 ^ k : Nat) =
      2 ^ k * 256 - 1 - S - b * 2 ^ k := by
    rw [Nat.sub_mul]
    omega
  rw [hfin, ← hc]
  omega

namespace Marshal

theorem readIntPosLoop_spec :
    ∀ (bs pre rest : List Nat) (syms : List (List Nat)) (i : Nat) (x : Int),
      (∀ b ∈ bs, b < 256) → 0 ≤ x → x < (2 : Int) ^ (8 * i) →
      readIntPosLoop bs.length i x ⟨pre ++ bs ++ rest, (pre.length : Int), syms⟩ =
        .ok (x + leSumAt bs i,
             ⟨pre ++ bs ++ rest, (pre.length : Int) + bs.length, syms⟩) := by
  intro bs
  induction bs with
  | nil =>
    intro pre rest syms i x _ _ _
    simp [readIntPosLoop, leSumAt]
  | cons b t ih =>
    intro pre rest syms i x hb hx0 hxlt
    have hblt : b < 256 := hb b (List.mem_cons_self b t)
    have hD : pre ++ (b :: t) ++ rest = pre ++ b :: (t ++ rest) := by simp
    rw [hD]
    simp only [List.length_cons, readIntPosLoop]
    rw [read_byte_frame]
    simp only [Bind.bind, Except.bind]
    have hu : (if 0 ≤ (if b < 128 then (b : Int) else (b : Int) - 256)
        then (if b < 128 then (b : Int) else (b : Int) - 256)
        else (if b < 128 then (b : Int) else (b : Int) - 256) + 256) = (b : Int) := by
      split_ifs <;> omega
    rw [hu]
    simp only [pyShiftL]
    rw [pyOr_disjoint x b (8 * i) hx0 hxlt]
    have hD2 : pre ++ b :: (t ++ rest) = (pre ++ [b]) ++ t ++ rest := by simp
    have hp : (pre.length : Int) + 1 = (((pre ++ [b]).length : Nat) : Int) := by
      simp
    rw [hD2, hp, ih (pre ++ [b]) rest syms (i + 1) (x + (b : Int) * 2 ^ (8 * i))
      (fun y hy => hb y (List.mem_cons_of_mem _ hy))
      (by positivity)
      (by
        have hC : (2 : Int) ^ (8 * (i + 1)) = 256 * 2 ^ (8 * i) := by
          have h8 : 8 * (i + 1) = 8 * i + 8 := by ring
          rw [h8, pow_add]
          norm_num
          ring
        have hb255 : (b : Int) ≤ 255 := by exact_mod_cast Nat.le_of_lt_succ hblt
        have hP : (0 : Int) < 2 ^ (8 * i) := by positivity
        have hbb : (b : Int) * 2 ^ (8 * i) ≤ 255 * 2 ^ (8 * i) :=
          mul_le_mul_of_nonneg_right hb255 (by positivity)
        omega)]
    have hv : x + (b : Int) * 2 ^ (8 * i) + leSumAt t (i + 1) = x + leSumAt (b :: t) i := by
      simp only [leSumAt]
      ring
    have hq : (((pre ++ [b]).length : Nat) : Int) + (t.length : Int)
        = (pre.length : Int) + ((t.length + 1 : Nat) : Int) := by
      simp
      push_cast
      omega
    rw [hv, hq]

theorem readIntNegLoop_spec :
    ∀ (bs pre rest : List Nat) (syms : List (List Nat)) (i : Nat) (S : Nat),
      (∀ b ∈ bs, b < 256) → S < 2 ^ (8 * i) →
      readIntNegLoop bs.length i ((S : Int) - (2 : Int) ^ (8 * i))
          ⟨pre ++ bs ++ rest, (pre.length : Int), syms⟩ =
        .ok ((S : Int) + leSumAt bs i - (2 : Int) ^ (8 * (i + bs.length)),
             ⟨pre ++ bs ++ rest, (pre.length : Int) + bs.length, syms⟩) := by
  intro bs
  induction bs with
  | nil =>
    intro pre rest syms i S _ _
    simp [readIntNegLoop, leSumAt]
  | cons b t ih =>
    intro pre rest syms i S hb hS
    have hblt : b < 256 := hb b (List.mem_cons_self b t)
    have hSc : (S : Int) < (2 : Int) ^ (8 * i) := by
      have hc : ((2 ^ (8 * i) : Nat) : Int) = (2 : Int) ^ (8 * i) := by
        push_cast
        ring
      rw [← hc]
      exact_mod_cast hS
    have hD : pre ++ (b :: t) ++ rest = pre ++ b :: (t ++ rest) := by simp
    rw [hD]
    simp only [List.length_cons, readIntNegLoop]
    rw [read_byte_frame]
    simp only [Bind.bind, Except.bind]
    rw [pyAnd_mask (8 * i) S hS]
    have hC : (2 : Int) ^ (8 * i) * 256 = (2 : Int) ^ (8 * (i + 1)) := by
      have h8 : 8 * (i + 1) = 8 * i + 8 := by ring
      rw [h8, pow_add]
      norm_num
    have hCn : (2 ^ (8 * i) * 256 : Nat) = 2 ^ (8 * (i + 1)) := by
      have h8 : 8 * (i + 1) = 8 * i + 8 := by ring
      rw [h8, pow_add]
      norm_num
    have hS' : S + b * 2 ^ (8 * i) < 2 ^ (8 * (i + 1)) := by
      have hbb : b * 2 ^ (8 * i) ≤ 255 * 2 ^ (8 * i) :=
        Nat.mul_le_mul_right _ (by omega)
      have hP : (0 : Nat) < 2 ^ (8 * i) := by positivity
      omega
    have hstep : pyOr ((S : Int) - (2 : Int) ^ (8 * i) * 256)
        (pyShiftL (if b < 128 then (b : Int) else (b : Int) - 256) (8 * i)) =
        ((S + b * 2 ^ (8 * i) : Nat) : Int) - (2 : Int) ^ (8 * (i + 1)) := by
      simp only [pyShiftL]
      by_cases h128 : b < 128
      · rw [if_pos h128, pyOr_negwin_pos (8 * i) S b hS h128, hC]
      · rw [if_neg h128, pyOr_negwin_neg (8 * i) S b hS (by omega) hblt, hC]
    rw [hstep]
    have hD2 : pre ++ b :: (t ++ rest) = (pre ++ [b]) ++ t ++ rest := by simp
    have hp : (pre.length : Int) + 1 = (((pre ++ [b]).length : Nat) : Int) := by
      simp
    rw [hD2, hp, ih (pre ++ [b]) rest syms (i + 1) (S + b * 2 ^ (8 * i))
      (fun y hy => hb y (List.mem_cons_of_mem _ hy)) hS']
    have hv : ((S + b * 2 ^ (8 * i) : Nat) : Int) + leSumAt t (i + 1)
        - (2 : Int) ^ (8 * (i + 1 + t.length))
        = (S : Int) + leSumAt (b :: t) i - (2 : Int) ^ (8 * (i + (t.length + 1))) := by
      have he : i + 1 + t.length = i + (t.length + 1) := by ring
      rw [he]
      simp only [leSumAt]
      push_cast
      ring
    have hq : (((pre ++ [b]).length : Nat) : Int) + (t.length : Int)
        = (pre.length : Int) + ((t.length + 1 : Nat) : Int) := by
      simp
      push_cast
      omega
    rw [hv, hq]

end Marshal

/-- The well-formed packed-fixnum encodings: byte strings that `_read_int`
consumes in full, paired with the value it returns for them.  The five
constructors correspond to the five decoding branches. -/
inductive IntEnc : List Nat → Int → Prop
  | zero : IntEnc [0] 0
  | posImm (b : Nat) : 5 ≤ b → b ≤ 127 → IntEnc [b] ((b : Int) - 5)
  | negImm (b : Nat) : 128 ≤ b → b ≤ 251 → IntEnc [b] ((b : Int) - 251)
  | posMulti (n : Nat) (bs : List Nat) : 1 ≤ n → n ≤ 4 → bs.length = n →
      (∀ b ∈ bs, b < 256) → IntEnc (n :: bs) (leSumAt bs 0)
  | negMulti (n : Nat) (bs : List Nat) : 1 ≤ n → n ≤ 4 → bs.length = n →
      (∀ b ∈ bs, b < 256) →
      IntEnc ((256 - n) :: bs) (leSumAt bs 0 - 2 ^ (8 * n))

/-- The well-formed encodings of a SYMBOL or SYMBOL_LINK occurrence (tag
byte included), with the text they produce and the symbol table they leave:
a freshly spelled symbol (empty or not) appends its text; a link with an
index in `[0, length)` resolves without changing the table. -/
inductive SymEnc (syms : List (List Nat)) : List Nat → List Nat → List (List Nat) → Prop
  | symZero (iz : List Nat) : IntEnc iz 0 →
      SymEnc syms (58 :: iz) [58] (syms ++ [[58]])
  | symPos (ib : List Nat) (sz : Int) (bs cs : List Nat) :
      IntEnc ib sz → 0 < sz → (bs.length : Int) = sz → utf8Decode bs = some cs →
      SymEnc syms (58 :: (ib ++ bs)) (58 :: cs) (syms ++ [58 :: cs])
  | link (il : List Nat) (i : Int) : IntEnc il i →
      0 ≤ i → i < (syms.length : Int) →
      SymEnc syms (59 :: il) (syms.getD i.toNat []) syms

namespace Marshal

/-- `_read_int` consumes exactly a well-formed packed-fixnum encoding and
returns its value, whatever follows it in the buffer. -/
theorem read_int_frame {ib : List Nat} {v : Int} (h : IntEnc ib v) :
    ∀ (pre rest : List Nat) (syms : List (List Nat)),
    _read_int ⟨pre ++ ib ++ rest, (pre.length : Int), syms⟩ =
      .ok (v, ⟨pre ++ ib ++ rest, (pre.length : Int) + ib.length, syms⟩) := by
  induction h with
  | zero =>
    intro pre rest syms
    have hD : pre ++ [0] ++ rest = pre ++ 0 :: rest := by simp
    rw [hD]
    simp only [_read_int]
    rw [read_byte_frame]
    simp only [Bind.bind, Except.bind]
    norm_num
  | posImm b h5 h127 =>
    intro pre rest syms
    have hD : pre ++ [b] ++ rest = pre ++ b :: rest := by simp
    rw [hD]
    simp only [_read_int]
    rw [read_byte_frame]
    simp only [Bind.bind, Except.bind]
    rw [if_pos (by omega : b < 128)]
    rw [if_neg (by exact_mod_cast (by omega : ¬ (b : Int) = 0)),
      if_pos (by exact_mod_cast (by omega : (b : Int) > 4))]
    simp
  | negImm b h128 h251 =>
    intro pre rest syms
    have hD : pre ++ [b] ++ rest = pre ++ b :: rest := by simp
    rw [hD]
    simp only [_read_int]
    rw [read_byte_frame]
    simp only [Bind.bind, Except.bind]
    rw [if_neg (by omega : ¬ b < 128)]
    rw [if_neg (by
        intro hc
        have : (b : Int) = 256 := by omega
        have : b = 256 := by exact_mod_cast this
        omega),
      if_neg (by
        intro hc
        have : (4 : Int) < (b : Int) - 256 := hc
        have hble : (b : Int) ≤ 251 := by exact_mod_cast h251
        omega),
      if_pos (by
        have hble : (b : Int) ≤ 251 := by exact_mod_cast h251
        show (b : Int) - 256 < -4
        omega)]
    have hv : (b : Int) - 256 + 5 = (b : Int) - 251 := by ring
    rw [hv]
    simp
  | posMulti n bs h1 h4 hlen hbs =>
    intro pre rest syms
    have hD : pre ++ (n :: bs) ++ rest = pre ++ n :: (bs ++ rest) := by simp
    rw [hD]
    simp only [_read_int]
    rw [read_byte_frame]
    simp only [Bind.bind, Except.bind]
    rw [if_pos (by omega : n < 128)]
    rw [if_neg (by exact_mod_cast (by omega : ¬ (n : Int) = 0)),
      if_neg (by exact_mod_cast (by omega : ¬ (n : Int) > 4)),
      if_neg (by
        intro hc
        have : (0 : Int) ≤ (n : Int) := by positivity
        omega),
      if_pos (by exact_mod_cast (by omega : (n : Int) > 0))]
    rw [show ((n : Int)).toNat = n from rfl]
    have hD2 : pre ++ n :: (bs ++ rest) = (pre ++ [n]) ++ bs ++ rest := by simp
    have hp : (pre.length : Int) + 1 = (((pre ++ [n]).length : Nat) : Int) := by simp
    have hspec := readIntPosLoop_spec bs (pre ++ [n]) rest syms 0 0 hbs
      (le_refl 0) (by norm_num)
    rw [hlen] at hspec
    rw [hD2, hp, hspec]
    have hq : (((pre ++ [n]).length : Nat) : Int) + (n : Int)
        = (pre.length : Int) + (((n :: bs).length : Nat) : Int) := by
      simp only [List.length_append, List.length_cons, List.length_nil, hlen]
      push_cast
      omega
    rw [zero_add, hq]
  | negMulti n bs h1 h4 hlen hbs =>
    intro pre rest syms
    have hD : pre ++ ((256 - n) :: bs) ++ rest = pre ++ (256 - n) :: (bs ++ rest) := by
      simp
    rw [hD]
    simp only [_read_int]
    rw [read_byte_frame]
    simp only [Bind.bind, Except.bind]
    rw [if_neg (by omega : ¬ (256 - n) < 128)]
    have hc : (((256 - n : Nat) : Int) - 256) = -(n : Int) := by
      push_cast [Nat.cast_sub (by omega : n ≤ 256)]
      ring
    rw [hc]
    rw [if_neg (by exact_mod_cast (by omega : ¬ -(n : Int) = 0)),
      if_neg (by
        intro hcc
        have h0 : (0 : Int) ≤ (n : Int) := by positivity
        omega),
      if_neg (by
        intro hcc
        have hle : (n : Int) ≤ 4 := by exact_mod_cast h4
        omega),
      if_neg (by
        intro hcc
        have h0 : (0 : Int) < (n : Int) := by exact_mod_cast h1
        omega)]
    have hneg : -(-(n : Int)) = ((n : Nat) : Int) := by ring
    rw [hneg, show (((n : Nat) : Int)).toNat = n from rfl]
    have hm1 : (-1 : Int) = ((0 : Nat) : Int) - (2 : Int) ^ (8 * 0) := by norm_num
    have hD2 : pre ++ (256 - n) :: (bs ++ rest) = (pre ++ [256 - n]) ++ bs ++ rest := by
      simp
    have hp : (pre.length : Int) + 1 = (((pre ++ [256 - n]).length : Nat) : Int) := by
      simp
    have hspec := readIntNegLoop_spec bs (pre ++ [256 - n]) rest syms 0 0 hbs
      (by norm_num)
    rw [hlen] at hspec
    rw [hm1, hD2, hp, hspec]
    have hq : (((pre ++ [256 - n]).length : Nat) : Int) + (n : Int)
        = (pre.length : Int) + ((((256 - n) :: bs).length : Nat) : Int) := by
      simp only [List.length_append, List.length_cons, List.length_nil, hlen]
      push_cast
      omega
    have hv : ((0 : Nat) : Int) + leSumAt bs 0 - (2 : Int) ^ (8 * (0 + n))
        = leSumAt bs 0 - 2 ^ (8 * n) := by
      norm_num
    rw [hv, hq]

theorem get?_eq_getD {α : Type} (l : List α) (n : Nat) (d : α) (h : n < l.length) :
    l.get? n = some (l.getD n d) := by
  rw [List.get?_eq_getElem?, List.getElem?_eq_getElem h, List.getD_eq_getElem l d h]

theorem read_string_frame {ib : List Nat} {sz : Int} (hi : IntEnc ib sz)
    (bs : List Nat) (hlen : (bs.length : Int) = sz) {cs : List Nat}
    (hutf : utf8Decode bs = some cs) (pre rest : List Nat)
    (syms : List (List Nat)) :
    _read_string ⟨pre ++ (ib ++ bs) ++ rest, (pre.length : Int), syms⟩ =
      .ok (cs, ⟨pre ++ (ib ++ bs) ++ rest,
                (pre.length : Int) + (ib ++ bs).length, syms⟩) := by
  have hD : pre ++ (ib ++ bs) ++ rest = pre ++ ib ++ (bs ++ rest) := by simp
  simp only [_read_string, hD]
  rw [read_int_frame hi pre (bs ++ rest) syms]
  simp only [Bind.bind, Except.bind]
  have hp : (pre.length : Int) + (ib.length : Int) = (((pre ++ ib).length : Nat) : Int) := by
    simp
  have hD2 : pre ++ ib ++ (bs ++ rest) = (pre ++ ib) ++ bs ++ rest := by simp
  rw [hp, hD2, ← hlen, read_bytes_frame (pre ++ ib) bs rest syms]
  dsimp only
  rw [hutf]
  have hq : (((pre ++ ib).length : Nat) : Int) + (bs.length : Int)
      = (pre.length : Int) + (((ib ++ bs).length : Nat) : Int) := by
    simp only [List.length_append]
    push_cast
    omega
  rw [hq]

theorem read_symbol_frame_zero {iz : List Nat} (hi : IntEnc iz 0)
    (pre rest : List Nat) (syms : List (List Nat)) :
    _read_symbol ⟨pre ++ iz ++ rest, (pre.length : Int), syms⟩ =
      .ok ([58], ⟨pre ++ iz ++ rest, (pre.length : Int) + iz.length,
                  syms ++ [[58]]⟩) := by
  simp only [_read_symbol]
  rw [read_int_frame hi pre rest syms]
  simp only [Bind.bind, Except.bind]
  simp only [if_true]

theorem read_symbol_frame_pos {ib : List Nat} {sz : Int} (hi : IntEnc ib sz)
    (hpos : 0 < sz) (bs : List Nat) (hlen : (bs.length : Int) = sz)
    {cs : List Nat} (hutf : utf8Decode bs = some cs) (pre rest : List Nat)
    (syms : List (List Nat)) :
    _read_symbol ⟨pre ++ (ib ++ bs) ++ rest, (pre.length : Int), syms⟩ =
      .ok (58 :: cs, ⟨pre ++ (ib ++ bs) ++ rest,
                      (pre.length : Int) + (ib ++ bs).length,
                      syms ++ [58 :: cs]⟩) := by
  have hD : pre ++ (ib ++ bs) ++ rest = pre ++ ib ++ (bs ++ rest) := by simp
  simp only [_read_symbol, hD]
  rw [read_int_frame hi pre (bs ++ rest) syms]
  simp only [Bind.bind, Except.bind]
  rw [if_neg (by omega : ¬ sz = 0)]
  have hp : (pre.length : Int) + (ib.length : Int) = (((pre ++ ib).length : Nat) : Int) := by
    simp
  have hD2 : pre ++ ib ++ (bs ++ rest) = (pre ++ ib) ++ bs ++ rest := by simp
  rw [hp, hD2, ← hlen, read_bytes_frame (pre ++ ib) bs rest syms]
  dsimp only
  rw [hutf]
  have hq : (((pre ++ ib).length : Nat) : Int) + (bs.length : Int)
      = (pre.length : Int) + (((ib ++ bs).length : Nat) : Int) := by
    simp only [List.length_append]
    push_cast
    omega
  rw [hq]

theorem read_symbol_link_frame {il : List Nat} {i : Int} (hi : IntEnc il i)
    (h0 : 0 ≤ i) (pre rest : List Nat) (syms : List (List Nat))
    (hlt : i < (syms.length : Int)) :
    _read_symbol_link ⟨pre ++ il ++ rest, (pre.length : Int), syms⟩ =
      .ok (syms.getD i.toNat [], ⟨pre ++ il ++ rest,
           (pre.length : Int) + il.length, syms⟩) := by
  simp only [_read_symbol_link]
  rw [read_int_frame hi pre rest syms]
  simp only [Bind.bind, Except.bind]
  rw [if_neg (by omega : ¬ i ≥ (syms.length : Int))]
  simp only [pyIndex]
  rw [if_neg (by omega : ¬ i < 0), if_neg (by omega : ¬ i < 0)]
  rw [get?_eq_getD syms i.toNat [] (by omega)]

/-- Reading a tag byte (always `< 128`). -/
theorem read_tag_frame (pre : List Nat) (b : Nat) (rest : List Nat)
    (syms : List (List Nat)) (hb : b < 128) :
    _read_byte ⟨pre ++ b :: rest, (pre.length : Int), syms⟩ =
      .ok ((b : Int), ⟨pre ++ b :: rest, (pre.length : Int) + 1, syms⟩) := by
  rw [read_byte_frame, if_pos hb]

theorem ok_pos_congr {α : Type} (v : α) (d : List Nat) (p q : Int)
    (sy : List (List Nat)) (h : p = q) :
    (Except.ok (v, (⟨d, p, sy⟩ : MState)) : Except PyErr (α × MState)) =
      .ok (v, ⟨d, q, sy⟩) := by
  rw [h]

/-- The shared SYMBOL-or-SYMBOL_LINK expectation, over the symbol grammar. -/
theorem readSymbolOrLink_frame {syms : List (List Nat)} {sb t : List Nat}
    {syms' : List (List Nat)} (h : SymEnc syms sb t syms') :
    ∀ (pre rest : List Nat),
    readSymbolOrLink ⟨pre ++ sb ++ rest, (pre.length : Int), syms⟩ =
      .ok (t, ⟨pre ++ sb ++ rest, (pre.length : Int) + sb.length, syms'⟩) := by
  induction h with
  | symZero iz hiz =>
    intro pre rest
    have hD : pre ++ (58 :: iz) ++ rest = pre ++ 58 :: (iz ++ rest) := by simp
    rw [hD]
    simp only [readSymbolOrLink]
    rw [read_tag_frame pre 58 (iz ++ rest) syms (by norm_num)]
    simp only [Bind.bind, Except.bind]
    rw [(by norm_num [RubyType.fromByte] :
      RubyType.fromByte ((58 : Nat) : Int) = some RubyType.SYMBOL)]
    dsimp only
    have hD2 : pre ++ 58 :: (iz ++ rest) = (pre ++ [58]) ++ iz ++ rest := by simp
    have hp : (pre.length : Int) + 1 = (((pre ++ [58]).length : Nat) : Int) := by simp
    rw [hD2, hp, read_symbol_frame_zero hiz (pre ++ [58]) rest syms]
    exact ok_pos_congr _ _ _ _ _ (by
      simp only [List.length_append, List.length_cons, List.length_nil]
      push_cast
      omega)
  | symPos ib sz bs cs hib hpos hlen hutf =>
    intro pre rest
    have hD : pre ++ (58 :: (ib ++ bs)) ++ rest = pre ++ 58 :: ((ib ++ bs) ++ rest) := by
      simp
    rw [hD]
    simp only [readSymbolOrLink]
    rw [read_tag_frame pre 58 ((ib ++ bs) ++ rest) syms (by norm_num)]
    simp only [Bind.bind, Except.bind]
    rw [(by norm_num [RubyType.fromByte] :
      RubyType.fromByte ((58 : Nat) : Int) = some RubyType.SYMBOL)]
    dsimp only
    have hD2 : pre ++ 58 :: ((ib ++ bs) ++ rest) = (pre ++ [58]) ++ (ib ++ bs) ++ rest := by
      simp
    have hp : (pre.length : Int) + 1 = (((pre ++ [58]).length : Nat) : Int) := by simp
    rw [hD2, hp, read_symbol_frame_pos hib hpos bs hlen hutf (pre ++ [58]) rest syms]
    exact ok_pos_congr _ _ _ _ _ (by
      simp only [List.length_append, List.length_cons, List.length_nil]
      push_cast
      omega)
  | link il i hil h0 hlt =>
    intro pre rest
    have hD : pre ++ (59 :: il) ++ rest = pre ++ 59 :: (il ++ rest) := by simp
    rw [hD]
    simp only [readSymbolOrLink]
    rw [read_tag_frame pre 59 (il ++ rest) syms (by norm_num)]
    simp only [Bind.bind, Except.bind]
    rw [(by norm_num [RubyType.fromByte] :
      RubyType.fromByte ((59 : Nat) : Int) = some RubyType.SYMBOL_LINK)]
    dsimp only
    have hD2 : pre ++ 59 :: (il ++ rest) = (pre ++ [59]) ++ il ++ rest := by simp
    have hp : (pre.length : Int) + 1 = (((pre ++ [59]).length : Nat) : Int) := by simp
    rw [hD2, hp, read_symbol_link_frame hil h0 (pre ++ [59]) rest syms hlt]
    exact ok_pos_congr _ _ _ _ _ (by
      simp only [List.length_append, List.length_cons, List.length_nil]
      push_cast
      omega)

theorem bignumFold_eq : ∀ (bs : List Nat) (i : Nat) (acc : Int),
    bignumFold bs i acc = acc + leSumAt bs i := by
  intro bs
  induction bs with
  | nil =>
    intro i acc
    simp [bignumFold, leSumAt]
  | cons b t ih =>
    intro i acc
    simp only [bignumFold, leSumAt]
    rw [if_pos (by positivity : (0 : Int) ≤ (b : Int)), ih]
    simp only [pyShiftL]
    have hm : i * 8 = 8 * i := by ring
    rw [hm]
    ring

/-- `_read_bignum` over a well-formed bignum body: any sign byte, a
nonnegative length, `2 · length` payload bytes, the little-endian value. -/
theorem read_bignum_frame (sgn : Nat) {il : List Nat} {len : Int}
    (hil : IntEnc il len) (bs : List Nat)
    (hlen : (bs.length : Int) = len * 2) (pre rest : List Nat)
    (syms : List (List Nat)) :
    _read_bignum ⟨pre ++ (sgn :: (il ++ bs)) ++ rest, (pre.length : Int), syms⟩ =
      .ok (leSumAt bs 0,
           ⟨pre ++ (sgn :: (il ++ bs)) ++ rest,
            (pre.length : Int) + (sgn :: (il ++ bs)).length, syms⟩) := by
  have hD : pre ++ (sgn :: (il ++ bs)) ++ rest = pre ++ sgn :: (il ++ (bs ++ rest)) := by
    simp
  rw [hD]
  simp only [_read_bignum]
  rw [read_byte_frame]
  simp only [Bind.bind, Except.bind]
  have hD2 : pre ++ sgn :: (il ++ (bs ++ rest)) = (pre ++ [sgn]) ++ il ++ (bs ++ rest) := by
    simp
  have hp : (pre.length : Int) + 1 = (((pre ++ [sgn]).length : Nat) : Int) := by simp
  rw [hD2, hp, read_int_frame hil (pre ++ [sgn]) (bs ++ rest) syms]
  dsimp only
  have hp2 : (((pre ++ [sgn]).length : Nat) : Int) + (il.length : Int)
      = (((pre ++ [sgn] ++ il).length : Nat) : Int) := by
    simp
    omega
  have hD3 : (pre ++ [sgn]) ++ il ++ (bs ++ rest) = (pre ++ [sgn] ++ il) ++ bs ++ rest := by
    simp
  rw [hp2, hD3, ← hlen, read_bytes_frame (pre ++ [sgn] ++ il) bs rest syms]
  dsimp only
  rw [bignumFold_eq bs 0 0, zero_add]
  exact ok_pos_congr _ _ _ _ _ (by
    simp only [List.length_append, List.length_cons, List.length_nil]
    push_cast
    omega)

end Marshal

/-- Building a Python dict from a pair list by repeated `d[k] = v`,
starting from `acc` (`TypeError` on the first unhashable key). -/
def dictFoldFrom (acc : List (RValue × RValue)) :
    List (RValue × RValue) → Except PyErr (List (RValue × RValue))
  | [] => .ok acc
  | (k, v) :: t =>
    match dictInsert acc k v with
    | .error e => .error e
    | .ok acc' => dictFoldFrom acc' t

/-- The children list accumulated by `_read_object`: keys and values
interleaved in stream order. -/
def pairsFlatten : List (RValue × RValue) → List RValue
  | [] => []
  | (k, v) :: t => k :: v :: pairsFlatten t

/-- The three shapes of decoding results the grammar tracks: one value, an
array-element list, a key/value pair list. -/
inductive ERes : Type
  | val (v : RValue)
  | list (vs : List RValue)
  | pairs (ps : List (RValue × RValue))

/-- The well-formed Marshal value encodings, indexed by a recursion depth
bound, the symbol table before, the consumed bytes, the decoded result
shape, and the symbol table after.  `EncR (n+1) … (.val v) …` holds of the
byte strings from which `_read` decodes `v` within nesting depth `n+1`;
`.list`/`.pairs` describe the element/pair sequences consumed by the loops
of the ARRAY, HASH, IVARS and OBJECT productions. -/
inductive EncR : Nat → List (List Nat) → List Nat → ERes → List (List Nat) → Prop
  | nil (n : Nat) (syms : List (List Nat)) :
      EncR (n + 1) syms [48] (.val .nil) syms
  | tru (n : Nat) (syms : List (List Nat)) :
      EncR (n + 1) syms [84] (.val (.bool true)) syms
  | fls (n : Nat) (syms : List (List Nat)) :
      EncR (n + 1) syms [70] (.val (.bool false)) syms
  | int (n : Nat) (syms : List (List Nat)) (ib : List Nat) (v : Int) :
      IntEnc ib v → EncR (n + 1) syms (105 :: ib) (.val (.int v)) syms
  | bignum (n : Nat) (syms : List (List Nat)) (sgn : Nat) (il : List Nat)
      (len : Int) (bs : List Nat) : IntEnc il len →
      (bs.length : Int) = len * 2 →
      EncR (n + 1) syms (108 :: (sgn :: (il ++ bs))) (.val (.int (leSumAt bs 0))) syms
  | str (n : Nat) (syms : List (List Nat)) (ib : List Nat) (sz : Int)
      (bs cs : List Nat) : IntEnc ib sz → (bs.length : Int) = sz →
      utf8Decode bs = some cs →
      EncR (n + 1) syms (34 :: (ib ++ bs)) (.val (.str cs)) syms
  | sym (n : Nat) (syms : List (List Nat)) (sb t : List Nat)
      (syms' : List (List Nat)) : SymEnc syms sb t syms' →
      EncR (n + 1) syms sb (.val (.str t)) syms'
  | arr (n : Nat) (syms : List (List Nat)) (il body : List Nat)
      (vs : List RValue) (syms' : List (List Nat)) :
      IntEnc il (vs.length : Int) → EncR n syms body (.list vs) syms' →
      EncR (n + 1) syms (91 :: (il ++ body)) (.val (.seq vs)) syms'
  | hash (n : Nat) (syms : List (List Nat)) (il body : List Nat)
      (ps d : List (RValue × RValue)) (syms' : List (List Nat)) :
      IntEnc il (ps.length : Int) → EncR n syms body (.pairs ps) syms' →
      dictFoldFrom [] ps = .ok d →
      EncR (n + 1) syms (123 :: (il ++ body)) (.val (.dict d)) syms'
  | ivars (n : Nat) (syms : List (List Nat)) (pb : List Nat) (v : RValue)
      (syms1 : List (List Nat)) (il ab : List Nat)
      (ps : List (RValue × RValue)) (syms2 : List (List Nat)) :
      EncR n syms pb (.val v) syms1 → IntEnc il (ps.length : Int) →
      EncR n syms1 ab (.pairs ps) syms2 →
      EncR (n + 1) syms (73 :: (pb ++ (il ++ ab))) (.val v) syms2
  | obj (n : Nat) (syms : List (List Nat)) (sb t : List Nat)
      (syms1 : List (List Nat)) (il body : List Nat)
      (ps : List (RValue × RValue)) (syms2 : List (List Nat)) :
      SymEnc syms sb t syms1 → IntEnc il (ps.length : Int) →
      EncR n syms1 body (.pairs ps) syms2 →
      EncR (n + 1) syms (111 :: (sb ++ (il ++ body)))
        (.val (.wrapper .OBJECT (some (.str t)) (pairsFlatten ps))) syms2
  | userdef (n : Nat) (syms : List (List Nat)) (sb t : List Nat)
      (syms1 : List (List Nat)) (il : List Nat) (sz : Int) (bs cs : List Nat) :
      SymEnc syms sb t syms1 → IntEnc il sz → (bs.length : Int) = sz →
      utf8Decode bs = some cs →
      EncR (n + 1) syms (117 :: (sb ++ (il ++ bs)))
        (.val (.wrapper .USERDEF (some (.str t)) [.str cs])) syms1
  | usrMarshal (n : Nat) (syms : List (List Nat)) (sb t : List Nat)
      (syms1 : List (List Nat)) (ob : List Nat) (v : RValue)
      (syms2 : List (List Nat)) :
      SymEnc syms sb t syms1 → EncR n syms1 ob (.val v) syms2 →
      EncR (n + 1) syms (85 :: (sb ++ ob))
        (.val (.wrapper .USR_MARSHAL (some (.str t)) [v])) syms2
  | ext (n : Nat) (syms : List (List Nat)) :
      EncR (n + 1) syms [101] (.val (.wrapper .EXTENDED none [])) syms
  | link (n : Nat) (syms : List (List Nat)) (il : List Nat) (i : Int) :
      IntEnc il i →
      EncR (n + 1) syms (64 :: il) (.val (.wrapper .LINK (some (.int i)) [])) syms
  | listNil (n : Nat) (syms : List (List Nat)) :
      EncR n syms [] (.list []) syms
  | listCons (n : Nat) (syms : List (List Nat)) (b : List Nat) (v : RValue)
      (syms1 : List (List Nat)) (bt : List Nat) (vt : List RValue)
      (syms2 : List (List Nat)) :
      EncR n syms b (.val v) syms1 → EncR n syms1 bt (.list vt) syms2 →
      EncR n syms (b ++ bt) (.list (v :: vt)) syms2
  | pairsNil (n : Nat) (syms : List (List Nat)) :
      EncR n syms [] (.pairs []) syms
  | pairsCons (n : Nat) (syms : List (List Nat)) (bk : List Nat) (k : RValue)
      (syms1 : List (List Nat)) (bv : List Nat) (v : RValue)
      (syms2 : List (List Nat)) (bt : List Nat)
      (pt : List (RValue × RValue)) (syms3 : List (List Nat)) :
      EncR n syms bk (.val k) syms1 → EncR n syms1 bv (.val v) syms2 →
      EncR n syms2 bt (.pairs pt) syms3 →
      EncR n syms (bk ++ (bv ++ bt)) (.pairs ((k, v) :: pt)) syms3
  | weaken (n : Nat) (syms : List (List Nat)) (bs : List Nat) (r : ERes)
      (syms' : List (List Nat)) :
      EncR n syms bs r syms' → EncR (n + 1) syms bs r syms'

/-- What decoder soundness means for each result shape: a `.val` encoding is
consumed exactly by `_read` (any fuel at least the depth bound, any
surrounding bytes); `.list` and `.pairs` encodings are consumed exactly by
the array loop, the hash / object-children / ivar loops respectively. -/
def EncMotive (n : Nat) (syms : List (List Nat)) (bs : List Nat) (r : ERes)
    (syms' : List (List Nat)) : Prop :=
  match r with
  | .val v => ∀ fuel, n ≤ fuel → ∀ pre rest : List Nat,
      Marshal._read fuel ⟨pre ++ bs ++ rest, (pre.length : Int), syms⟩ =
        .ok (v, ⟨pre ++ bs ++ rest, (pre.length : Int) + bs.length, syms'⟩)
  | .list vs => ∀ fuel, n ≤ fuel → ∀ pre rest : List Nat, ∀ acc : List RValue,
      Marshal.readArrayLoop (fun st => Marshal._read fuel st) vs.length
          ⟨pre ++ bs ++ rest, (pre.length : Int), syms⟩ acc =
        .ok (acc ++ vs, ⟨pre ++ bs ++ rest, (pre.length : Int) + bs.length, syms'⟩)
  | .pairs ps => ∀ fuel, n ≤ fuel → ∀ pre rest : List Nat,
      (∀ acc : List (RValue × RValue),
        Marshal.readHashLoop (fun st => Marshal._read fuel st) ps.length
            ⟨pre ++ bs ++ rest, (pre.length : Int), syms⟩ acc =
          match dictFoldFrom acc ps with
          | .ok d => .ok (d, ⟨pre ++ bs ++ rest, (pre.length : Int) + bs.length, syms'⟩)
          | .error e => .error e) ∧
      (∀ acc : List RValue,
        Marshal.readPairsLoop (fun st => Marshal._read fuel st) ps.length
            ⟨pre ++ bs ++ rest, (pre.length : Int), syms⟩ acc =
          .ok (acc ++ pairsFlatten ps,
               ⟨pre ++ bs ++ rest, (pre.length : Int) + bs.length, syms'⟩)) ∧
      (Marshal.readIvarLoop (fun st => Marshal._read fuel st) ps.length
          ⟨pre ++ bs ++ rest, (pre.length : Int), syms⟩ =
        .ok ⟨pre ++ bs ++ rest, (pre.length : Int) + bs.length, syms'⟩)

open Marshal

/-- Decoder soundness over the well-formed-encoding grammar: every
well-formed encoding is consumed exactly, with the decoded result and the
symbol-table evolution the grammar prescribes, independently of what
precedes or follows it in the buffer. -/
theorem encR_sound {n : Nat} {syms : List (List Nat)} {bs : List Nat}
    {r : ERes} {syms' : List (List Nat)} (h : EncR n syms bs r syms') :
    EncMotive n syms bs r syms' := by
  induction h with
  | nil n syms =>
    simp only [EncMotive]
    intro fuel hfuel pre rest
    obtain ⟨g, rfl⟩ : ∃ g, fuel = g + 1 := ⟨fuel - 1, by omega⟩
    have hD : pre ++ [48] ++ rest = pre ++ 48 :: rest := by simp
    rw [hD]
    simp only [Marshal._read]
    rw [read_tag_frame pre 48 rest syms (by norm_num)]
    simp only [Bind.bind, Except.bind]
    rw [(by norm_num [RubyType.fromByte] :
      RubyType.fromByte ((48 : Nat) : Int) = some RubyType.NIL)]
    dsimp only [_read_extended]
    exact ok_pos_congr _ _ _ _ _ (by
      simp only [List.length_append, List.length_cons, List.length_nil]
      push_cast
      omega)
  | tru n syms =>
    simp only [EncMotive]
    intro fuel hfuel pre rest
    obtain ⟨g, rfl⟩ : ∃ g, fuel = g + 1 := ⟨fuel - 1, by omega⟩
    have hD : pre ++ [84] ++ rest = pre ++ 84 :: rest := by simp
    rw [hD]
    simp only [Marshal._read]
    rw [read_tag_frame pre 84 rest syms (by norm_num)]
    simp only [Bind.bind, Except.bind]
    rw [(by norm_num [RubyType.fromByte] :
      RubyType.fromByte ((84 : Nat) : Int) = some RubyType.TRUE)]
    dsimp only [_read_extended]
    exact ok_pos_congr _ _ _ _ _ (by
      simp only [List.length_append, List.length_cons, List.length_nil]
      push_cast
      omega)
  | fls n syms =>
    simp only [EncMotive]
    intro fuel hfuel pre rest
    obtain ⟨g, rfl⟩ : ∃ g, fuel = g + 1 := ⟨fuel - 1, by omega⟩
    have hD : pre ++ [70] ++ rest = pre ++ 70 :: rest := by simp
    rw [hD]
    simp only [Marshal._read]
    rw [read_tag_frame pre 70 rest syms (by norm_num)]
    simp only [Bind.bind, Except.bind]
    rw [(by norm_num [RubyType.fromByte] :
      RubyType.fromByte ((70 : Nat) : Int) = some RubyType.FALSE)]
    dsimp only [_read_extended]
    exact ok_pos_congr _ _ _ _ _ (by
      simp only [List.length_append, List.length_cons, List.length_nil]
      push_cast
      omega)
  | int n syms ib v hib =>
    simp only [EncMotive]
    intro fuel hfuel pre rest
    obtain ⟨g, rfl⟩ : ∃ g, fuel = g + 1 := ⟨fuel - 1, by omega⟩
    have hD : pre ++ (105 :: ib) ++ rest = pre ++ 105 :: (ib ++ rest) := by simp
    rw [hD]
    simp only [Marshal._read]
    rw [read_tag_frame pre 105 (ib ++ rest) syms (by norm_num)]
    simp only [Bind.bind, Except.bind]
    rw [(by norm_num [RubyType.fromByte] :
      RubyType.fromByte ((105 : Nat) : Int) = some RubyType.INT)]
    dsimp only
    have hD2 : pre ++ 105 :: (ib ++ rest) = (pre ++ [105]) ++ ib ++ rest := by simp
    have hp : (pre.length : Int) + 1 = (((pre ++ [105]).length : Nat) : Int) := by simp
    rw [hD2, hp, read_int_frame hib (pre ++ [105]) rest syms]
    simp only [Except.bind]
    exact ok_pos_congr _ _ _ _ _ (by
      simp only [List.length_append, List.length_cons, List.length_nil]
      push_cast
      omega)
  | bignum n syms sgn il len bs hil hlen =>
    simp only [EncMotive]
    intro fuel hfuel pre rest
    obtain ⟨g, rfl⟩ : ∃ g, fuel = g + 1 := ⟨fuel - 1, by omega⟩
    have hD : pre ++ (108 :: (sgn :: (il ++ bs))) ++ rest
        = pre ++ 108 :: ((sgn :: (il ++ bs)) ++ rest) := by simp
    rw [hD]
    simp only [Marshal._read]
    rw [read_tag_frame pre 108 ((sgn :: (il ++ bs)) ++ rest) syms (by norm_num)]
    simp only [Bind.bind, Except.bind]
    rw [(by norm_num [RubyType.fromByte] :
      RubyType.fromByte ((108 : Nat) : Int) = some RubyType.BIGNUM)]
    dsimp only
    have hD2 : pre ++ 108 :: ((sgn :: (il ++ bs)) ++ rest)
        = (pre ++ [108]) ++ (sgn :: (il ++ bs)) ++ rest := by simp
    have hp : (pre.length : Int) + 1 = (((pre ++ [108]).length : Nat) : Int) := by simp
    rw [hD2, hp, read_bignum_frame sgn hil bs hlen (pre ++ [108]) rest syms]
    simp only [Except.bind]
    exact ok_pos_congr _ _ _ _ _ (by
      simp only [List.length_append, List.length_cons, List.length_nil]
      push_cast
      omega)
  | str n syms ib sz bs cs hib hlen hutf =>
    simp only [EncMotive]
    intro fuel hfuel pre rest
    obtain ⟨g, rfl⟩ : ∃ g, fuel = g + 1 := ⟨fuel - 1, by omega⟩
    have hD : pre ++ (34 :: (ib ++ bs)) ++ rest = pre ++ 34 :: ((ib ++ bs) ++ rest) := by
      simp
    rw [hD]
    simp only [Marshal._read]
    rw [read_tag_frame pre 34 ((ib ++ bs) ++ rest) syms (by norm_num)]
    simp only [Bind.bind, Except.bind]
    rw [(by norm_num [RubyType.fromByte] :
      RubyType.fromByte ((34 : Nat) : Int) = some RubyType.STRING)]
    dsimp only
    have hD2 : pre ++ 34 :: ((ib ++ bs) ++ rest) = (pre ++ [34]) ++ (ib ++ bs) ++ rest := by
      simp
    have hp : (pre.length : Int) + 1 = (((pre ++ [34]).length : Nat) : Int) := by simp
    rw [hD2, hp, read_string_frame hib bs hlen hutf (pre ++ [34]) rest syms]
    simp only [Except.bind]
    exact ok_pos_congr _ _ _ _ _ (by
      simp only [List.length_append, List.length_cons, List.length_nil]
      push_cast
      omega)
  | sym n syms sb t syms' hsym =>
    simp only [EncMotive]
    intro fuel hfuel pre rest
    obtain ⟨g, rfl⟩ : ∃ g, fuel = g + 1 := ⟨fuel - 1, by omega⟩
    cases hsym with
    | symZero iz hiz =>
      have hD : pre ++ (58 :: iz) ++ rest = pre ++ 58 :: (iz ++ rest) := by simp
      rw [hD]
      simp only [Marshal._read]
      rw [read_tag_frame pre 58 (iz ++ rest) syms (by norm_num)]
      simp only [Bind.bind, Except.bind]
      rw [(by norm_num [RubyType.fromByte] :
        RubyType.fromByte ((58 : Nat) : Int) = some RubyType.SYMBOL)]
      dsimp only
      have hD2 : pre ++ 58 :: (iz ++ rest) = (pre ++ [58]) ++ iz ++ rest := by simp
      have hp : (pre.length : Int) + 1 = (((pre ++ [58]).length : Nat) : Int) := by simp
      rw [hD2, hp, read_symbol_frame_zero hiz (pre ++ [58]) rest syms]
      simp only [Except.bind]
      exact ok_pos_congr _ _ _ _ _ (by
        simp only [List.length_append, List.length_cons, List.length_nil]
        push_cast
        omega)
    | symPos ib sz bs cs hib hpos hlen hutf =>
      have hD : pre ++ (58 :: (ib ++ bs)) ++ rest = pre ++ 58 :: ((ib ++ bs) ++ rest) := by
        simp
      rw [hD]
      simp only [Marshal._read]
      rw [read_tag_frame pre 58 ((ib ++ bs) ++ rest) syms (by norm_num)]
      simp only [Bind.bind, Except.bind]
      rw [(by norm_num [RubyType.fromByte] :
        RubyType.fromByte ((58 : Nat) : Int) = some RubyType.SYMBOL)]
      dsimp only
      have hD2 : pre ++ 58 :: ((ib ++ bs) ++ rest) = (pre ++ [58]) ++ (ib ++ bs) ++ rest := by
        simp
      have hp : (pre.length : Int) + 1 = (((pre ++ [58]).length : Nat) : Int) := by simp
      rw [hD2, hp, read_symbol_frame_pos hib hpos bs hlen hutf (pre ++ [58]) rest syms]
      simp only [Except.bind]
      exact ok_pos_congr _ _ _ _ _ (by
        simp only [List.length_append, List.length_cons, List.length_nil]
        push_cast
        omega)
    | link il i hil h0 hlt =>
      have hD : pre ++ (59 :: il) ++ rest = pre ++ 59 :: (il ++ rest) := by simp
      rw [hD]
      simp only [Marshal._read]
      rw [read_tag_frame pre 59 (il ++ rest) syms (by norm_num)]
      simp only [Bind.bind, Except.bind]
      rw [(by norm_num [RubyType.fromByte] :
        RubyType.fromByte ((59 : Nat) : Int) = some RubyType.SYMBOL_LINK)]
      dsimp only
      have hD2 : pre ++ 59 :: (il ++ rest) = (pre ++ [59]) ++ il ++ rest := by simp
      have hp : (pre.length : Int) + 1 = (((pre ++ [59]).length : Nat) : Int) := by simp
      rw [hD2, hp, read_symbol_link_frame hil h0 (pre ++ [59]) rest syms hlt]
      simp only [Except.bind]
      exact ok_pos_congr _ _ _ _ _ (by
        simp only [List.length_append, List.length_cons, List.length_nil]
        push_cast
        omega)
  | arr n syms il body vs syms' hil hbody ih =>
    simp only [EncMotive] at ih ⊢
    intro fuel hfuel pre rest
    obtain ⟨g, rfl⟩ : ∃ g, fuel = g + 1 := ⟨fuel - 1, by omega⟩
    have hD : pre ++ (91 :: (il ++ body)) ++ rest = pre ++ 91 :: (il ++ (body ++ rest)) := by
      simp
    rw [hD]
    simp only [Marshal._read]
    rw [read_tag_frame pre 91 (il ++ (body ++ rest)) syms (by norm_num)]
    simp only [Bind.bind, Except.bind]
    rw [(by norm_num [RubyType.fromByte] :
      RubyType.fromByte ((91 : Nat) : Int) = some RubyType.ARRAY)]
    dsimp only [_read_array]
    simp only [Bind.bind, Except.bind]
    have hD2 : pre ++ 91 :: (il ++ (body ++ rest)) = (pre ++ [91]) ++ il ++ (body ++ rest) := by
      simp
    have hp : (pre.length : Int) + 1 = (((pre ++ [91]).length : Nat) : Int) := by simp
    rw [hD2, hp, read_int_frame hil (pre ++ [91]) (body ++ rest) syms]
    simp only [Except.bind]
    rw [show ((vs.length : Int)).toNat = vs.length from rfl]
    have hD3 : (pre ++ [91]) ++ il ++ (body ++ rest) = (pre ++ [91] ++ il) ++ body ++ rest := by
      simp
    have hp2 : (((pre ++ [91]).length : Nat) : Int) + (il.length : Int)
        = (((pre ++ [91] ++ il).length : Nat) : Int) := by
      simp
      omega
    rw [hD3, hp2, ih g (by omega) (pre ++ [91] ++ il) rest []]
    simp only [Except.bind, List.nil_append]
    exact ok_pos_congr _ _ _ _ _ (by
      simp only [List.length_append, List.length_cons, List.length_nil]
      push_cast
      omega)
  | hash n syms il body ps d syms' hil hbody hfold ih =>
    simp only [EncMotive] at ih ⊢
    intro fuel hfuel pre rest
    obtain ⟨g, rfl⟩ : ∃ g, fuel = g + 1 := ⟨fuel - 1, by omega⟩
    have hD : pre ++ (123 :: (il ++ body)) ++ rest = pre ++ 123 :: (il ++ (body ++ rest)) := by
      simp
    rw [hD]
    simp only [Marshal._read]
    rw [read_tag_frame pre 123 (il ++ (body ++ rest)) syms (by norm_num)]
    simp only [Bind.bind, Except.bind]
    rw [(by norm_num [RubyType.fromByte] :
      RubyType.fromByte ((123 : Nat) : Int) = some RubyType.HASH)]
    dsimp only [_read_hash]
    simp only [Bind.bind, Except.bind]
    have hD2 : pre ++ 123 :: (il ++ (body ++ rest)) = (pre ++ [123]) ++ il ++ (body ++ rest) := by
      simp
    have hp : (pre.length : Int) + 1 = (((pre ++ [123]).length : Nat) : Int) := by simp
    rw [hD2, hp, read_int_frame hil (pre ++ [123]) (body ++ rest) syms]
    simp only [Except.bind]
    rw [show ((ps.length : Int)).toNat = ps.length from rfl]
    have hD3 : (pre ++ [123]) ++ il ++ (body ++ rest) = (pre ++ [123] ++ il) ++ body ++ rest := by
      simp
    have hp2 : (((pre ++ [123]).length : Nat) : Int) + (il.length : Int)
        = (((pre ++ [123] ++ il).length : Nat) : Int) := by
      simp
      omega
    obtain ⟨ihh, _, _⟩ := ih g (by omega) (pre ++ [123] ++ il) rest
    rw [hD3, hp2, ihh [], hfold]
    simp only [Except.bind]
    exact ok_pos_congr _ _ _ _ _ (by
      simp only [List.length_append, List.length_cons, List.length_nil]
      push_cast
      omega)
  | ivars n syms pb v syms1 il ab ps syms2 hpb hil hab ihp iha =>
    simp only [EncMotive] at ihp iha ⊢
    intro fuel hfuel pre rest
    obtain ⟨g, rfl⟩ : ∃ g, fuel = g + 1 := ⟨fuel - 1, by omega⟩
    have hD : pre ++ (73 :: (pb ++ (il ++ ab))) ++ rest
        = pre ++ 73 :: (pb ++ (il ++ (ab ++ rest))) := by simp
    rw [hD]
    simp only [Marshal._read]
    rw [read_tag_frame pre 73 (pb ++ (il ++ (ab ++ rest))) syms (by norm_num)]
    simp only [Bind.bind, Except.bind]
    rw [(by norm_num [RubyType.fromByte] :
      RubyType.fromByte ((73 : Nat) : Int) = some RubyType.IVARS)]
    dsimp only [_read_ivar]
    simp only [Bind.bind, Except.bind]
    have hD2 : pre ++ 73 :: (pb ++ (il ++ (ab ++ rest)))
        = (pre ++ [73]) ++ pb ++ (il ++ (ab ++ rest)) := by simp
    have hp : (pre.length : Int) + 1 = (((pre ++ [73]).length : Nat) : Int) := by simp
    rw [hD2, hp, ihp g (by omega) (pre ++ [73]) (il ++ (ab ++ rest))]
    simp only [Except.bind]
    have hD3 : (pre ++ [73]) ++ pb ++ (il ++ (ab ++ rest))
        = (pre ++ [73] ++ pb) ++ il ++ (ab ++ rest) := by simp
    have hp2 : (((pre ++ [73]).length : Nat) : Int) + (pb.length : Int)
        = (((pre ++ [73] ++ pb).length : Nat) : Int) := by
      simp
      omega
    rw [hD3, hp2, read_int_frame hil (pre ++ [73] ++ pb) (ab ++ rest) syms1]
    simp only [Except.bind]
    rw [show ((ps.length : Int)).toNat = ps.length from rfl]
    have hD4 : (pre ++ [73] ++ pb) ++ il ++ (ab ++ rest)
        = (pre ++ [73] ++ pb ++ il) ++ ab ++ rest := by simp
    have hp3 : (((pre ++ [73] ++ pb).length : Nat) : Int) + (il.length : Int)
        = (((pre ++ [73] ++ pb ++ il).length : Nat) : Int) := by
      simp
      omega
    obtain ⟨_, _, ihl⟩ := iha g (by omega) (pre ++ [73] ++ pb ++ il) rest
    rw [hD4, hp3, ihl]
    simp only [Except.bind]
    exact ok_pos_congr _ _ _ _ _ (by
      simp only [List.length_append, List.length_cons, List.length_nil]
      push_cast
      omega)
  | obj n syms sb t syms1 il body ps syms2 hsym hil hbody ih =>
    simp only [EncMotive] at ih ⊢
    intro fuel hfuel pre rest
    obtain ⟨g, rfl⟩ : ∃ g, fuel = g + 1 := ⟨fuel - 1, by omega⟩
    have hD : pre ++ (111 :: (sb ++ (il ++ body))) ++ rest
        = pre ++ 111 :: (sb ++ (il ++ (body ++ rest))) := by simp
    rw [hD]
    simp only [Marshal._read]
    rw [read_tag_frame pre 111 (sb ++ (il ++ (body ++ rest))) syms (by norm_num)]
    simp only [Bind.bind, Except.bind]
    rw [(by norm_num [RubyType.fromByte] :
      RubyType.fromByte ((111 : Nat) : Int) = some RubyType.OBJECT)]
    dsimp only [_read_object]
    simp only [Bind.bind, Except.bind]
    have hD2 : pre ++ 111 :: (sb ++ (il ++ (body ++ rest)))
        = (pre ++ [111]) ++ sb ++ (il ++ (body ++ rest)) := by simp
    have hp : (pre.length : Int) + 1 = (((pre ++ [111]).length : Nat) : Int) := by simp
    rw [hD2, hp, readSymbolOrLink_frame hsym (pre ++ [111]) (il ++ (body ++ rest))]
    simp only [Except.bind]
    have hD3 : (pre ++ [111]) ++ sb ++ (il ++ (body ++ rest))
        = (pre ++ [111] ++ sb) ++ il ++ (body ++ rest) := by simp
    have hp2 : (((pre ++ [111]).length : Nat) : Int) + (sb.length : Int)
        = (((pre ++ [111] ++ sb).length : Nat) : Int) := by
      simp
      omega
    rw [hD3, hp2, read_int_frame hil (pre ++ [111] ++ sb) (body ++ rest) syms1]
    simp only [Except.bind]
    rw [show ((ps.length : Int)).toNat = ps.length from rfl]
    have hD4 : (pre ++ [111] ++ sb) ++ il ++ (body ++ rest)
        = (pre ++ [111] ++ sb ++ il) ++ body ++ rest := by simp
    have hp3 : (((pre ++ [111] ++ sb).length : Nat) : Int) + (il.length : Int)
        = (((pre ++ [111] ++ sb ++ il).length : Nat) : Int) := by
      simp
      omega
    obtain ⟨_, ihc, _⟩ := ih g (by omega) (pre ++ [111] ++ sb ++ il) rest
    rw [hD4, hp3, ihc []]
    simp only [Except.bind, List.nil_append]
    exact ok_pos_congr _ _ _ _ _ (by
      simp only [List.length_append, List.length_cons, List.length_nil]
      push_cast
      omega)
  | userdef n syms sb t syms1 il sz bs cs hsym hil hlen hutf =>
    simp only [EncMotive]
    intro fuel hfuel pre rest
    obtain ⟨g, rfl⟩ : ∃ g, fuel = g + 1 := ⟨fuel - 1, by omega⟩
    have hD : pre ++ (117 :: (sb ++ (il ++ bs))) ++ rest
        = pre ++ 117 :: (sb ++ (il ++ (bs ++ rest))) := by simp
    rw [hD]
    simp only [Marshal._read]
    rw [read_tag_frame pre 117 (sb ++ (il ++ (bs ++ rest))) syms (by norm_num)]
    simp only [Bind.bind, Except.bind]
    rw [(by norm_num [RubyType.fromByte] :
      RubyType.fromByte ((117 : Nat) : Int) = some RubyType.USERDEF)]
    dsimp only [_read_userdef]
    simp only [Bind.bind, Except.bind]
    have hD2 : pre ++ 117 :: (sb ++ (il ++ (bs ++ rest)))
        = (pre ++ [117]) ++ sb ++ (il ++ (bs ++ rest)) := by simp
    have hp : (pre.length : Int) + 1 = (((pre ++ [117]).length : Nat) : Int) := by simp
    rw [hD2, hp, readSymbolOrLink_frame hsym (pre ++ [117]) (il ++ (bs ++ rest))]
    simp only [Except.bind]
    have hD3 : (pre ++ [117]) ++ sb ++ (il ++ (bs ++ rest))
        = (pre ++ [117] ++ sb) ++ il ++ (bs ++ rest) := by simp
    have hp2 : (((pre ++ [117]).length : Nat) : Int) + (sb.length : Int)
        = (((pre ++ [117] ++ sb).length : Nat) : Int) := by
      simp
      omega
    rw [hD3, hp2, read_int_frame hil (pre ++ [117] ++ sb) (bs ++ rest) syms1]
    simp only [Except.bind]
    have hD4 : (pre ++ [117] ++ sb) ++ il ++ (bs ++ rest)
        = (pre ++ [117] ++ sb ++ il) ++ bs ++ rest := by simp
    have hp3 : (((pre ++ [117] ++ sb).length : Nat) : Int) + (il.length : Int)
        = (((pre ++ [117] ++ sb ++ il).length : Nat) : Int) := by
      simp
      omega
    rw [hD4, hp3, ← hlen, read_bytes_frame (pre ++ [117] ++ sb ++ il) bs rest syms1]
    dsimp only
    rw [hutf]
    exact ok_pos_congr _ _ _ _ _ (by
      simp only [List.length_append, List.length_cons, List.length_nil]
      push_cast
      omega)
  | usrMarshal n syms sb t syms1 ob v syms2 hsym hob ih =>
    simp only [EncMotive] at ih ⊢
    intro fuel hfuel pre rest
    obtain ⟨g, rfl⟩ : ∃ g, fuel = g + 1 := ⟨fuel - 1, by omega⟩
    have hD : pre ++ (85 :: (sb ++ ob)) ++ rest = pre ++ 85 :: (sb ++ (ob ++ rest)) := by
      simp
    rw [hD]
    simp only [Marshal._read]
    rw [read_tag_frame pre 85 (sb ++ (ob ++ rest)) syms (by norm_num)]
    simp only [Bind.bind, Except.bind]
    rw [(by norm_num [RubyType.fromByte] :
      RubyType.fromByte ((85 : Nat) : Int) = some RubyType.USR_MARSHAL)]
    dsimp only [_read_usr_marshal]
    simp only [Bind.bind, Except.bind]
    have hD2 : pre ++ 85 :: (sb ++ (ob ++ rest)) = (pre ++ [85]) ++ sb ++ (ob ++ rest) := by
      simp
    have hp : (pre.length : Int) + 1 = (((pre ++ [85]).length : Nat) : Int) := by simp
    rw [hD2, hp, readSymbolOrLink_frame hsym (pre ++ [85]) (ob ++ rest)]
    simp only [Except.bind]
    have hD3 : (pre ++ [85]) ++ sb ++ (ob ++ rest) = (pre ++ [85] ++ sb) ++ ob ++ rest := by
      simp
    have hp2 : (((pre ++ [85]).length : Nat) : Int) + (sb.length : Int)
        = (((pre ++ [85] ++ sb).length : Nat) : Int) := by
      simp
      omega
    rw [hD3, hp2, ih g (by omega) (pre ++ [85] ++ sb) rest]
    simp only [Except.bind]
    exact ok_pos_congr _ _ _ _ _ (by
      simp only [List.length_append, List.length_cons, List.length_nil]
      push_cast
      omega)
  | ext n syms =>
    simp only [EncMotive]
    intro fuel hfuel pre rest
    obtain ⟨g, rfl⟩ : ∃ g, fuel = g + 1 := ⟨fuel - 1, by omega⟩
    have hD : pre ++ [101] ++ rest = pre ++ 101 :: rest := by simp
    rw [hD]
    simp only [Marshal._read]
    rw [read_tag_frame pre 101 rest syms (by norm_num)]
    simp only [Bind.bind, Except.bind]
    rw [(by norm_num [RubyType.fromByte] :
      RubyType.fromByte ((101 : Nat) : Int) = some RubyType.EXTENDED)]
    dsimp only [_read_extended]
    exact ok_pos_congr _ _ _ _ _ (by
      simp only [List.length_append, List.length_cons, List.length_nil]
      push_cast
      omega)
  | link n syms il i hil =>
    simp only [EncMotive]
    intro fuel hfuel pre rest
    obtain ⟨g, rfl⟩ : ∃ g, fuel = g + 1 := ⟨fuel - 1, by omega⟩
    have hD : pre ++ (64 :: il) ++ rest = pre ++ 64 :: (il ++ rest) := by simp
    rw [hD]
    simp only [Marshal._read]
    rw [read_tag_frame pre 64 (il ++ rest) syms (by norm_num)]
    simp only [Bind.bind, Except.bind]
    rw [(by norm_num [RubyType.fromByte] :
      RubyType.fromByte ((64 : Nat) : Int) = some RubyType.LINK)]
    dsimp only [_read_link]
    simp only [Bind.bind, Except.bind]
    have hD2 : pre ++ 64 :: (il ++ rest) = (pre ++ [64]) ++ il ++ rest := by simp
    have hp : (pre.length : Int) + 1 = (((pre ++ [64]).length : Nat) : Int) := by simp
    rw [hD2, hp, read_int_frame hil (pre ++ [64]) rest syms]
    simp only [Except.bind]
    exact ok_pos_congr _ _ _ _ _ (by
      simp only [List.length_append, List.length_cons, List.length_nil]
      push_cast
      omega)
  | listNil n syms =>
    simp only [EncMotive]
    intro fuel hf pre rest acc
    simp [Marshal.readArrayLoop]
  | listCons n syms b v syms1 bt vt syms2 h1 h2 ih1 ih2 =>
    simp only [EncMotive] at ih1 ih2 ⊢
    intro fuel hfuel pre rest acc
    simp only [List.length_cons, Marshal.readArrayLoop]
    have hD : pre ++ (b ++ bt) ++ rest = pre ++ b ++ (bt ++ rest) := by simp
    rw [hD]
    simp only [Bind.bind]
    rw [ih1 fuel hfuel pre (bt ++ rest)]
    simp only [Except.bind]
    have hD2 : pre ++ b ++ (bt ++ rest) = (pre ++ b) ++ bt ++ rest := by simp
    have hp : (pre.length : Int) + (b.length : Int) = (((pre ++ b).length : Nat) : Int) := by
      simp
    rw [hD2, hp, ih2 fuel hfuel (pre ++ b) rest (acc ++ [v])]
    have hvals : (acc ++ [v]) ++ vt = acc ++ v :: vt := by simp
    rw [hvals]
    exact ok_pos_congr _ _ _ _ _ (by
      simp only [List.length_append, List.length_cons, List.length_nil]
      push_cast
      omega)
  | pairsNil n syms =>
    simp only [EncMotive]
    intro fuel hf pre rest
    refine ⟨fun acc => ?_, fun acc => ?_, ?_⟩
    · simp [Marshal.readHashLoop, dictFoldFrom]
    · simp [Marshal.readPairsLoop, pairsFlatten]
    · simp [Marshal.readIvarLoop]
  | pairsCons n syms bk k syms1 bv v syms2 bt pt syms3 h1 h2 h3 ih1 ih2 ih3 =>
    simp only [EncMotive] at ih1 ih2 ih3 ⊢
    intro fuel hfuel pre rest
    have hD : pre ++ (bk ++ (bv ++ bt)) ++ rest = pre ++ bk ++ (bv ++ (bt ++ rest)) := by
      simp
    have hD2 : pre ++ bk ++ (bv ++ (bt ++ rest)) = (pre ++ bk) ++ bv ++ (bt ++ rest) := by
      simp
    have hD3 : (pre ++ bk) ++ bv ++ (bt ++ rest) = (pre ++ bk ++ bv) ++ bt ++ rest := by
      simp
    have hp1 : (pre.length : Int) + (bk.length : Int) = (((pre ++ bk).length : Nat) : Int) := by
      simp
    have hp2 : (((pre ++ bk).length : Nat) : Int) + (bv.length : Int)
        = (((pre ++ bk ++ bv).length : Nat) : Int) := by
      simp
      omega
    obtain ⟨ih3h, ih3p, ih3i⟩ := ih3 fuel hfuel (pre ++ bk ++ bv) rest
    refine ⟨fun acc => ?_, fun acc => ?_, ?_⟩
    · simp only [List.length_cons, Marshal.readHashLoop]
      rw [hD]
      simp only [Bind.bind]
      rw [ih1 fuel hfuel pre (bv ++ (bt ++ rest))]
      simp only [Except.bind]
      rw [hD2, hp1, ih2 fuel hfuel (pre ++ bk) (bt ++ rest)]
      simp only [Except.bind]
      simp only [dictFoldFrom]
      cases hins : dictInsert acc k v with
      | error e => dsimp only
      | ok acc2 =>
        dsimp only
        rw [hD3, hp2, ih3h acc2]
        cases hdf : dictFoldFrom acc2 pt with
        | error e => dsimp only
        | ok dd =>
          dsimp only
          exact ok_pos_congr _ _ _ _ _ (by
            simp only [List.length_append, List.length_cons, List.length_nil]
            push_cast
            omega)
    · simp only [List.length_cons, Marshal.readPairsLoop]
      rw [hD]
      simp only [Bind.bind]
      rw [ih1 fuel hfuel pre (bv ++ (bt ++ rest))]
      simp only [Except.bind]
      rw [hD2, hp1, ih2 fuel hfuel (pre ++ bk) (bt ++ rest)]
      simp only [Except.bind]
      rw [hD3, hp2, ih3p (acc ++ [k, v])]
      simp only [pairsFlatten]
      have hvals : (acc ++ [k, v]) ++ pairsFlatten pt = acc ++ (k :: v :: pairsFlatten pt) := by
        simp
      rw [hvals]
      exact ok_pos_congr _ _ _ _ _ (by
        simp only [List.length_append, List.length_cons, List.length_nil]
        push_cast
        omega)
    · simp only [List.length_cons, Marshal.readIvarLoop]
      rw [hD]
      simp only [Bind.bind]
      rw [ih1 fuel hfuel pre (bv ++ (bt ++ rest))]
      simp only [Except.bind]
      rw [hD2, hp1, ih2 fuel hfuel (pre ++ bk) (bt ++ rest)]
      simp only [Except.bind]
      rw [hD3, hp2, ih3i]
      have hq : (((pre ++ bk ++ bv).length : Nat) : Int) + (bt.length : Int)
          = (pre.length : Int) + (((bk ++ (bv ++ bt)).length : Nat) : Int) := by
        simp only [List.length_append, List.length_cons, List.length_nil]
        push_cast
        omega
      rw [hq]
  | weaken n syms bs r syms' hr ih =>
    cases r with
    | val v =>
      simp only [EncMotive] at ih ⊢
      exact fun fuel hf => ih fuel (by omega)
    | list vs =>
      simp only [EncMotive] at ih ⊢
      exact fun fuel hf => ih fuel (by omega)
    | pairs ps =>
      simp only [EncMotive] at ih ⊢
      exact fun fuel hf => ih fuel (by omega)

/-- Whether a failure mode is one of the six error kinds the specification
defines: `endOfData`/`notEnoughData` are UnexpectedEndOfInput,
`unsupportedVersion` is UnsupportedVersion, `notManagedType` is
UnsupportedType, `expectingSymbol` is UnexpectedType, `invalidSymbolLink` is
InvalidSymbolLink, and `unicodeDecodeError`/`binasciiError` are
InvalidEncoding.  The generic interpreter exceptions (`IndexError`,
`TypeError`, `RecursionError`) are not defined kinds. -/
def definedKind : PyErr → Prop
  | .endOfData => True
  | .notEnoughData => True
  | .unsupportedVersion => True
  | .notManagedType _ => True
  | .expectingSymbol _ => True
  | .invalidSymbolLink _ => True
  | .unicodeDecodeError => True
  | .binasciiError => True
  | .indexError => False
  | .typeError => False
  | .recursionError => False

namespace Marshal

theorem read_byte_head (b : Nat) (t : List Nat) (syms : List (List Nat))
    (hb : b < 128) :
    _read_byte ⟨b :: t, 0, syms⟩ = .ok ((b : Int), ⟨b :: t, 1, syms⟩) := by
  have h := read_tag_frame [] b t syms hb
  simpa using h

theorem read_byte_second (a b : Nat) (t : List Nat) (syms : List (List Nat))
    (hb : b < 128) :
    _read_byte ⟨a :: b :: t, 1, syms⟩ = .ok ((b : Int), ⟨a :: b :: t, 2, syms⟩) := by
  have h := read_tag_frame [a] b t syms hb
  simpa using h

/-- The length of a Python slice whose endpoints are in range. -/
theorem pySlice_length (l : List Nat) (a b : Int) (h0 : 0 ≤ a) (hab : a ≤ b)
    (hb : b ≤ (l.length : Int)) :
    ((pySlice l a b).length : Int) = b - a := by
  simp only [pySlice]
  rw [if_neg (show ¬ a < 0 by omega), if_neg (show ¬ b < 0 by omega)]
  have hmin1 : min a ((l.length : Nat) : Int) = a := by rw [min_eq_left]; omega
  have hmin2 : min b ((l.length : Nat) : Int) = b := by rw [min_eq_left]; omega
  rw [hmin1, hmin2]
  rcases eq_or_lt_of_le hab with heq | hlt
  · rw [if_neg (by omega)]
    simp
    omega
  · rw [if_pos hlt]
    simp only [List.length_take, List.length_drop]
    omega

end Marshal

open Marshal

/-- C6: the packed-fixnum decoder applies, in order on the leading signed
byte `c`: value `0` when `c = 0`; `c - 5` when `c > 4` (stored bytes
`5..127`); `c + 5` when `c < -4` (stored bytes `128..251`); for `0 < c ≤ 4`
the unsigned little-endian sum of the next `c` bytes; and for `-4 ≤ c < 0`
the two's-complement reconstruction from accumulator `-1` with per-byte
window masking over the next `-c` bytes, whose value is the little-endian
sum minus `2 ^ (8 · -c)`; consequently the standard Marshal encodings of
`-123, -1, 0, 1, 122, 123, 255, 65536, -65536` decode to exactly those
values. -/
theorem packed_fixnum_correct :
    (∀ (pre rest : List Nat) (syms : List (List Nat)),
      Marshal._read_int ⟨pre ++ [0] ++ rest, (pre.length : Int), syms⟩ =
        .ok (0, ⟨pre ++ [0] ++ rest, (pre.length : Int) + 1, syms⟩)) ∧
    (∀ (b : Nat), 5 ≤ b → b ≤ 127 → ∀ (pre rest : List Nat) (syms : List (List Nat)),
      Marshal._read_int ⟨pre ++ [b] ++ rest, (pre.length : Int), syms⟩ =
        .ok ((b : Int) - 5, ⟨pre ++ [b] ++ rest, (pre.length : Int) + 1, syms⟩)) ∧
    (∀ (b : Nat), 128 ≤ b → b ≤ 251 → ∀ (pre rest : List Nat) (syms : List (List Nat)),
      Marshal._read_int ⟨pre ++ [b] ++ rest, (pre.length : Int), syms⟩ =
        .ok (((b : Int) - 256) + 5,
             ⟨pre ++ [b] ++ rest, (pre.length : Int) + 1, syms⟩)) ∧
    (∀ (n : Nat) (bs : List Nat), 1 ≤ n → n ≤ 4 → bs.length = n →
      (∀ x ∈ bs, x < 256) → ∀ (pre rest : List Nat) (syms : List (List Nat)),
      Marshal._read_int ⟨pre ++ (n :: bs) ++ rest, (pre.length : Int), syms⟩ =
        .ok (leSumAt bs 0,
             ⟨pre ++ (n :: bs) ++ rest,
              (pre.length : Int) + (n :: bs).length, syms⟩)) ∧
    (∀ (n : Nat) (bs : List Nat), 1 ≤ n → n ≤ 4 → bs.length = n →
      (∀ x ∈ bs, x < 256) → ∀ (pre rest : List Nat) (syms : List (List Nat)),
      Marshal._read_int ⟨pre ++ ((256 - n) :: bs) ++ rest, (pre.length : Int), syms⟩ =
        .ok (leSumAt bs 0 - 2 ^ (8 * n),
             ⟨pre ++ ((256 - n) :: bs) ++ rest,
              (pre.length : Int) + ((256 - n) :: bs).length, syms⟩)) ∧
    Marshal._read_int ⟨[128], 0, []⟩ = .ok (-123, ⟨[128], 1, []⟩) ∧
    Marshal._read_int ⟨[250], 0, []⟩ = .ok (-1, ⟨[250], 1, []⟩) ∧
    Marshal._read_int ⟨[0], 0, []⟩ = .ok (0, ⟨[0], 1, []⟩) ∧
    Marshal._read_int ⟨[6], 0, []⟩ = .ok (1, ⟨[6], 1, []⟩) ∧
    Marshal._read_int ⟨[127], 0, []⟩ = .ok (122, ⟨[127], 1, []⟩) ∧
    Marshal._read_int ⟨[1, 123], 0, []⟩ = .ok (123, ⟨[1, 123], 2, []⟩) ∧
    Marshal._read_int ⟨[1, 255], 0, []⟩ = .ok (255, ⟨[1, 255], 2, []⟩) ∧
    Marshal._read_int ⟨[3, 0, 0, 1], 0, []⟩ = .ok (65536, ⟨[3, 0, 0, 1], 4, []⟩) ∧
    Marshal._read_int ⟨[253, 0, 0, 255], 0, []⟩ =
      .ok (-65536, ⟨[253, 0, 0, 255], 4, []⟩) := by
  refine ⟨?_, ?_, ?_, ?_, ?_, ?_, ?_, ?_, ?_, ?_, ?_, ?_, ?_, ?_⟩
  · intro pre rest syms
    exact read_int_frame IntEnc.zero pre rest syms
  · intro b h5 h127 pre rest syms
    exact read_int_frame (IntEnc.posImm b h5 h127) pre rest syms
  · intro b h128 h251 pre rest syms
    have h := read_int_frame (IntEnc.negImm b h128 h251) pre rest syms
    have hv : (b : Int) - 251 = ((b : Int) - 256) + 5 := by ring
    rw [hv] at h
    exact h
  · intro n bs h1 h4 hlen hbs pre rest syms
    exact read_int_frame (IntEnc.posMulti n bs h1 h4 hlen hbs) pre rest syms
  · intro n bs h1 h4 hlen hbs pre rest syms
    exact read_int_frame (IntEnc.negMulti n bs h1 h4 hlen hbs) pre rest syms
  · rfl
  · rfl
  · rfl
  · rfl
  · rfl
  · rfl
  · rfl
  · rfl
  · rfl

/-- C6 witness: the immediate-positive branch applied to the stored byte
`10`, decoding to `5`. -/
theorem packed_fixnum_correct_witness :
    Marshal._read_int ⟨[10], 0, []⟩ = .ok ((10 : Int) - 5, ⟨[10], 1, []⟩) := by
  have h := packed_fixnum_correct.2.1 10 (by norm_num) (by norm_num) [] [] []
  simpa using h

/-- C9: `_read_ivar` first decodes one nested value (the payload), then an
attribute count and that many key/value pairs which are consumed but
discarded; the returned value is exactly the decoded payload, unchanged. -/
theorem ivars_payload_passthrough :
    ∀ (rd : MState → Except PyErr (RValue × MState)) (s : MState)
      (v : RValue) (s' : MState),
      Marshal._read_ivar rd s = .ok (v, s') →
      ∃ s1 : MState, rd s = .ok (v, s1) := by
  intro rd s v s' h
  simp only [Marshal._read_ivar] at h
  cases h1 : rd s with
  | error e =>
    rw [h1] at h
    simp [Bind.bind, Except.bind] at h
  | ok p1 =>
    obtain ⟨v0, s1⟩ := p1
    rw [h1] at h
    simp only [Bind.bind, Except.bind] at h
    cases h2 : Marshal._read_int s1 with
    | error e =>
      rw [h2] at h
      simp at h
    | ok p2 =>
      obtain ⟨sz, s2⟩ := p2
      rw [h2] at h
      simp only at h
      cases h3 : Marshal.readIvarLoop rd sz.toNat s2 with
      | error e =>
        rw [h3] at h
        simp at h
      | ok s3 =>
        rw [h3] at h
        simp only [Except.ok.injEq, Prod.mk.injEq] at h
        refine ⟨s1, ?_⟩
        rw [← h.1]

/-- C9 witness: an IVARS body whose payload is `nil` and whose attribute
count is `0`: the production returns the payload `nil`. -/
theorem ivars_payload_passthrough_witness :
    ∃ s1 : MState,
      Marshal._read 5 ⟨[48, 5], 0, []⟩ = .ok (.nil, s1) :=
  ivars_payload_passthrough (fun st => Marshal._read 5 st) ⟨[48, 5], 0, []⟩
    .nil ⟨[48, 5], 2, []⟩ rfl

/-- C8: decoding is deterministic and call-independent: in a sequence of
`load` calls, the result of each call is exactly the result of a fresh
independent call on its input (the embedding of `load` is a pure function
of the input because `Marshal.load` constructs a fresh instance, with
position `0` and an empty symbol table, for every call — the second
conjunct exhibits that construction). -/
theorem load_call_independent :
    (∀ (fuel : Nat) (ds : List (List Nat)) (i : Nat),
      (ds.map (Marshal.load fuel)).get? i = (ds.get? i).map (Marshal.load fuel)) ∧
    (∀ (fuel : Nat) (data : List Nat),
      Marshal.load fuel data =
        (Marshal._load fuel ⟨data, 0, []⟩).map (·.1)) := by
  constructor
  · intro fuel ds i
    exact List.get?_map (Marshal.load fuel) ds i
  · intro fuel data
    rfl

/-- C10: for every buffer beginning with the version bytes `{4, 8}`
followed by one complete well-formed value encoding (an encoding in the
grammar `EncR`, with the empty initial symbol table), `load` returns the
value decoded from that prefix regardless of any trailing bytes: the
trailing bytes never change the result and never cause an error. -/
theorem trailing_bytes_ignored :
    ∀ (n : Nat) (body : List Nat) (v : RValue) (syms' : List (List Nat))
      (extra : List Nat) (fuel : Nat),
      EncR n [] body (.val v) syms' → n ≤ fuel →
      Marshal.load fuel (4 :: 8 :: (body ++ extra)) = .ok v := by
  intro n body v syms' extra fuel henc hfuel
  have h := encR_sound henc
  simp only [EncMotive] at h
  have h2 := h fuel hfuel [4, 8] extra
  norm_num at h2
  simp only [Marshal.load, Marshal.minit, Marshal._load]
  rw [read_byte_head 4 (8 :: (body ++ extra)) [] (by norm_num)]
  simp only [Bind.bind, Except.bind]
  rw [if_pos (show ((4 : Nat) : Int) = 4 by norm_num)]
  rw [read_byte_second 4 8 (body ++ extra) [] (by norm_num)]
  dsimp only
  rw [if_pos (show ((8 : Nat) : Int) = 8 by norm_num)]
  rw [h2]
  rfl

/-- C10 witness: the well-formed `nil` encoding `[48]` followed by a
trailing byte `99` decodes to `nil`, the trailing byte untouched. -/
theorem trailing_bytes_ignored_witness :
    Marshal.load 1 [4, 8, 48, 99] = .ok .nil :=
  trailing_bytes_ignored 1 [48] .nil [] [99] 1 (EncR.nil 0 []) (le_refl 1)

/-- C7: `_read_bignum` reads one sign byte that is ignored (any byte is
accepted), a length via the integer codec, then `2 · length` raw bytes,
and returns the unsigned little-endian sum `Σ byte_i · 256 ^ i` over them;
in particular the returned integer is nonnegative for every input and
whatever the sign byte. -/
theorem bignum_unsigned :
    (∀ (s : MState) (v : Int) (s' : MState),
      Marshal._read_bignum s = .ok (v, s') → 0 ≤ v) ∧
    (∀ (sgn : Nat) (il : List Nat) (len : Int), IntEnc il len →
      ∀ (bs : List Nat), (bs.length : Int) = len * 2 →
      ∀ (pre rest : List Nat) (syms : List (List Nat)),
      Marshal._read_bignum ⟨pre ++ (sgn :: (il ++ bs)) ++ rest,
          (pre.length : Int), syms⟩ =
        .ok (leSumAt bs 0,
             ⟨pre ++ (sgn :: (il ++ bs)) ++ rest,
              (pre.length : Int) + (sgn :: (il ++ bs)).length, syms⟩) ∧
        0 ≤ leSumAt bs 0) := by
  constructor
  · intro s v s' h
    simp only [Marshal._read_bignum] at h
    cases h1 : Marshal._read_byte s with
    | error e =>
      rw [h1] at h
      simp [Bind.bind, Except.bind] at h
    | ok p1 =>
      obtain ⟨b1, s1⟩ := p1
      rw [h1] at h
      simp only [Bind.bind, Except.bind] at h
      cases h2 : Marshal._read_int s1 with
      | error e =>
        rw [h2] at h
        simp at h
      | ok p2 =>
        obtain ⟨len, s2⟩ := p2
        rw [h2] at h
        simp only at h
        cases h3 : Marshal._read_bytes s2 (len * 2) with
        | error e =>
          rw [h3] at h
          simp at h
        | ok p3 =>
          obtain ⟨bs, s3⟩ := p3
          rw [h3] at h
          simp only [Except.ok.injEq, Prod.mk.injEq] at h
          have hv : v = bignumFold bs 0 0 := h.1.symm
          rw [hv, bignumFold_eq bs 0 0, zero_add]
          exact leSumAt_nonneg bs 0
  · intro sgn il len hil bs hlen pre rest syms
    exact ⟨read_bignum_frame sgn hil bs hlen pre rest syms, leSumAt_nonneg bs 0⟩

/-- C7 witness: sign byte `43` (`+`), length `1`, payload `[1, 2]`: the
bignum decodes to `513 = 1 + 2 · 256 ≥ 0`. -/
theorem bignum_unsigned_witness :
    Marshal._read_bignum ⟨[43, 6, 1, 2], 0, []⟩ =
      .ok (leSumAt [1, 2] 0, ⟨[43, 6, 1, 2], 4, []⟩) ∧ 0 ≤ leSumAt [1, 2] 0 := by
  have h := bignum_unsigned.2 43 [6] 1 (by
      have := IntEnc.posImm 6 (by norm_num) (by norm_num)
      norm_num at this
      exact this)
    [1, 2] (by norm_num) [] [] []
  simpa using h

theorem pyKeyEq_refl (k : RValue) (hk : pyHashable k = true) :
    pyKeyEq k k = true := by
  cases k <;> simp_all [pyKeyEq, pyHashable]

/-- C1 counterexample: decoding the hash body `{"a" => 1, "a" => 2}` (the
same key spelled twice) yields a Mapping with a single entry `("a", 2)`,
not one containing both pairs — `_read_hash` stores into a Python dict, so
last-write-wins deduplication is applied. -/
theorem hash_duplicate_key_counterexample :
    Marshal.load 9 [4, 8, 123, 7, 34, 6, 97, 105, 6, 34, 6, 97, 105, 7] =
      .ok (.dict [(.str [97], .int 2)]) ∧
    ¬ (∃ d : List (RValue × RValue),
      Marshal.load 9 [4, 8, 123, 7, 34, 6, 97, 105, 6, 34, 6, 97, 105, 7] =
        .ok (.dict d) ∧ d.length = 2) := by
  constructor
  · rfl
  · rintro ⟨d, hd, hl⟩
    have h : Marshal.load 9 [4, 8, 123, 7, 34, 6, 97, 105, 6, 34, 6, 97, 105, 7] =
        .ok (.dict [(.str [97], .int 2)]) := rfl
    rw [h] at hd
    simp only [Except.ok.injEq, RValue.dict.injEq] at hd
    rw [← hd] at hl
    simp at hl

/-- C1 amended: a HASH production is decoded into a Python dict, so a key
occurring twice in the 2×count alternating stream is deduplicated with
last-write-wins on the value (the stored key object and its position stay
those of the first insertion): the duplicate-key hash body decodes to the
single pair `("a", 2)`, and in general inserting the same hashable key
twice leaves one entry holding the second value. -/
theorem hash_duplicate_key_amended :
    Marshal.load 9 [4, 8, 123, 7, 34, 6, 97, 105, 6, 34, 6, 97, 105, 7] =
      .ok (.dict [(.str [97], .int 2)]) ∧
    (∀ k v1 v2 : RValue, pyHashable k = true →
      dictFoldFrom [] [(k, v1), (k, v2)] = .ok [(k, v2)]) := by
  constructor
  · rfl
  · intro k v1 v2 hk
    simp [dictFoldFrom, dictInsert, dictUpdate, hk, pyKeyEq_refl k hk]

/-- C1 amended witness: inserting key `0` twice with values `nil` then
`true` leaves the single entry `(0, true)`. -/
theorem hash_duplicate_key_amended_witness :
    dictFoldFrom [] [(.int 0, .nil), (.int 0, .bool true)] =
      .ok [(.int 0, .bool true)] :=
  hash_duplicate_key_amended.2 (.int 0) .nil (.bool true) rfl

/-- C2 counterexample: on the buffer `[4, 8, 34, 151]` (a STRING whose
decoded length is `-100`), the decode call succeeds and finishes with the
cursor at position `-96`: the position decreased by 100 during the call and
left `[0, len]`, violating the claimed invariant. -/
theorem cursor_invariant_counterexample :
    Marshal._load 9 (Marshal.minit [4, 8, 34, 151]) =
      .ok (.str [], ⟨[4, 8, 34, 151], -96, []⟩) ∧ ¬ (0 ≤ (-96 : Int)) :=
  ⟨rfl, by norm_num⟩

/-- C2 amended: `_read_byte` advances the position by exactly one (or fails
without returning a state), and `_read_bytes` adds exactly `count` to the
position; when `count ≥ 0` and the position starts within bounds this
returns exactly `count` bytes and preserves `0 ≤ position ≤ len` — but a
negative `count` (reachable from counts decoded out of the input) passes
the bounds check whenever `position + count ≤ len` and then moves the
position strictly backwards. -/
theorem cursor_advance_amended :
    (∀ (s : MState) (b : Int) (s' : MState),
      Marshal._read_byte s = .ok (b, s') →
      s'.position = s.position + 1 ∧ s'.data = s.data ∧ s'.symbols = s.symbols) ∧
    (∀ (s : MState) (count : Int) (bs : List Nat) (s' : MState),
      Marshal._read_bytes s count = .ok (bs, s') →
      s'.position = s.position + count ∧ s'.data = s.data ∧ s'.symbols = s.symbols) ∧
    (∀ (s : MState) (count : Int) (bs : List Nat) (s' : MState),
      0 ≤ count → 0 ≤ s.position → s.position ≤ (s.data.length : Int) →
      Marshal._read_bytes s count = .ok (bs, s') →
      (bs.length : Int) = count ∧ 0 ≤ s'.position ∧
        s'.position ≤ (s.data.length : Int)) ∧
    (∀ (s : MState) (count : Int), count < 0 →
      s.position + count ≤ (s.data.length : Int) →
      ∃ bs, Marshal._read_bytes s count =
        .ok (bs, { s with position := s.position + count }) ∧
        s.position + count < s.position) := by
  refine ⟨?_, ?_, ?_, ?_⟩
  · intro s b s' h
    simp only [Marshal._read_byte] at h
    split at h
    · exact absurd h (by simp)
    · split at h
      · exact absurd h (by simp)
      · simp only [Except.ok.injEq, Prod.mk.injEq] at h
        rw [← h.2]
        exact ⟨rfl, rfl, rfl⟩
  · intro s count bs s' h
    simp only [Marshal._read_bytes] at h
    split at h
    · exact absurd h (by simp)
    · simp only [Except.ok.injEq, Prod.mk.injEq] at h
      rw [← h.2]
      exact ⟨rfl, rfl, rfl⟩
  · intro s count bs s' hc hp0 hpl h
    simp only [Marshal._read_bytes] at h
    split at h
    · exact absurd h (by simp)
    · rename_i hlt
      simp only [Except.ok.injEq, Prod.mk.injEq] at h
      have hbs : bs = pySlice s.data s.position (s.position + count) := h.1.symm
      have hlen : ((pySlice s.data s.position (s.position + count)).length : Int)
          = s.position + count - s.position :=
        pySlice_length s.data s.position (s.position + count) hp0 (by omega)
          (by omega)
      rw [← h.2]
      dsimp only
      refine ⟨?_, by omega, by omega⟩
      rw [hbs, hlen]
      ring
  · intro s count hc hle
    refine ⟨pySlice s.data s.position (s.position + count), ?_, by omega⟩
    simp only [Marshal._read_bytes]
    rw [if_neg (by omega)]

/-- C2 amended witness: reading one byte from `⟨[7], 0, []⟩` advances the
position to exactly `1` and changes nothing else. -/
theorem cursor_advance_amended_witness :
    (⟨[7], 1, []⟩ : MState).position = (⟨[7], 0, []⟩ : MState).position + 1 ∧
    (⟨[7], 1, []⟩ : MState).data = (⟨[7], 0, []⟩ : MState).data ∧
    (⟨[7], 1, []⟩ : MState).symbols = (⟨[7], 0, []⟩ : MState).symbols :=
  cursor_advance_amended.1 ⟨[7], 0, []⟩ 7 ⟨[7], 1, []⟩ rfl

/-- C3 counterexample: the buffer `[4, 8, 123, 6, 91, 0, 48]` — a hash
`{[] => nil}` whose key is an (unhashable) array — makes the decode fail
with Python's generic `TypeError`, which is none of the six defined error
kinds. -/
theorem error_kinds_counterexample :
    Marshal.load 9 [4, 8, 123, 6, 91, 0, 48] = .error .typeError ∧
    ¬ definedKind .typeError :=
  ⟨rfl, fun h => h⟩

/-- C3 amended: the decoder is total (every call returns a value or an
error), and malformed inputs surface the defined kinds — empty input and a
truncated header give UnexpectedEndOfInput, a wrong header
UnsupportedVersion, an unknown tag UnsupportedType, an out-of-range symbol
link InvalidSymbolLink, invalid UTF-8 in a string payload and invalid
base64 text InvalidEncoding (both a lone data character, and pad
characters whose count is reset by the following data characters and so
never completes a quad, as in `"AB=CDEF="`, while `"AB=CDEF="` followed by
two more data characters is well-padded and decodes to six bytes) — except
that a hash with an unhashable key raises a generic `TypeError`, a
negative symbol link below `-table length` a generic `IndexError`, and
exhausting the recursion limit a `RecursionError`, none of which is a
defined kind. -/
theorem error_kinds_amended :
    (∀ (fuel : Nat) (data : List Nat),
      (∃ v, Marshal.load fuel data = .ok v) ∨
      (∃ e, Marshal.load fuel data = .error e)) ∧
    Marshal.load 9 [] = .error .endOfData ∧
    Marshal.load 9 [4] = .error .endOfData ∧
    Marshal.load 9 [4, 9, 48] = .error .unsupportedVersion ∧
    Marshal.load 9 [4, 8, 99] = .error (.notManagedType 99) ∧
    Marshal.load 9 [4, 8, 59, 6] = .error (.invalidSymbolLink 1) ∧
    Marshal.load 9 [4, 8, 34, 6, 255] = .error .unicodeDecodeError ∧
    Marshal.load_b64 9 [65] = .error .binasciiError ∧
    Marshal.b64decode [65, 66, 61, 67, 68, 69, 70, 61] = .error .binasciiError ∧
    Marshal.load_b64 9 [65, 66, 61, 67, 68, 69, 70, 61] = .error .binasciiError ∧
    Marshal.b64decode [65, 66, 61, 67, 68, 69, 70, 61, 71, 72] =
      .ok [0, 16, 131, 16, 81, 135] ∧
    definedKind .endOfData ∧ definedKind .unsupportedVersion ∧
    definedKind (.notManagedType 99) ∧ definedKind (.invalidSymbolLink 1) ∧
    definedKind .unicodeDecodeError ∧ definedKind .binasciiError ∧
    Marshal.load 9 [4, 8, 123, 6, 91, 0, 48] = .error .typeError ∧
    Marshal.load 9 [4, 8, 59, 250] = .error .indexError ∧
    Marshal.load 2 [4, 8, 91, 6, 91, 6, 48] = .error .recursionError ∧
    ¬ definedKind .indexError ∧ ¬ definedKind .recursionError := by
  refine ⟨?_, rfl, rfl, rfl, rfl, rfl, rfl, rfl, rfl, rfl, rfl, trivial,
    trivial, trivial, trivial, trivial, trivial, rfl, rfl, rfl,
    fun h => h, fun h => h⟩
  intro fuel data
  cases h : Marshal.load fuel data with
  | ok v => exact Or.inl ⟨v, rfl⟩
  | error e => exact Or.inr ⟨e, rfl⟩

/-- C4 counterexample: in the array `[:a, symbol-link -1]`, the link index
`-1` is not in `[0, table length)`, yet the decode does not fail with
InvalidSymbolLink — it succeeds, resolving the link to `:a` through
Python's negative list indexing. -/
theorem symbol_link_counterexample :
    Marshal.load 9 [4, 8, 91, 7, 58, 6, 97, 59, 250] =
      .ok (.seq [.str [58, 97], .str [58, 97]]) ∧
    ¬ (∃ e, Marshal.load 9 [4, 8, 91, 7, 58, 6, 97, 59, 250] = .error e) := by
  constructor
  · rfl
  · rintro ⟨e, h⟩
    have h2 : Marshal.load 9 [4, 8, 91, 7, 58, 6, 97, 59, 250] =
        .ok (.seq [.str [58, 97], .str [58, 97]]) := rfl
    rw [h2] at h
    exact absurd h (by simp)

/-- C4 amended: `_read_symbol_link` fails with `InvalidSymbolLink i` only
when `i ≥` the table length; an index in `[0, length)` returns the symbol
appended at that index; a negative index in `[-length, 0)` resolves through
Python's negative indexing to the entry at `length + i`; and an index below
`-length` fails with a generic `IndexError`. -/
theorem symbol_link_amended :
    (∀ (il : List Nat) (i : Int) (pre rest : List Nat) (syms : List (List Nat)),
      IntEnc il i → (syms.length : Int) ≤ i →
      Marshal._read_symbol_link ⟨pre ++ il ++ rest, (pre.length : Int), syms⟩ =
        .error (.invalidSymbolLink i)) ∧
    (∀ (il : List Nat) (i : Int) (pre rest : List Nat) (syms : List (List Nat)),
      IntEnc il i → 0 ≤ i → i < (syms.length : Int) →
      Marshal._read_symbol_link ⟨pre ++ il ++ rest, (pre.length : Int), syms⟩ =
        .ok (syms.getD i.toNat [],
             ⟨pre ++ il ++ rest, (pre.length : Int) + il.length, syms⟩)) ∧
    (∀ (il : List Nat) (i : Int) (pre rest : List Nat) (syms : List (List Nat)),
      IntEnc il i → -(syms.length : Int) ≤ i → i < 0 →
      Marshal._read_symbol_link ⟨pre ++ il ++ rest, (pre.length : Int), syms⟩ =
        .ok (syms.getD (i + (syms.length : Int)).toNat [],
             ⟨pre ++ il ++ rest, (pre.length : Int) + il.length, syms⟩)) ∧
    (∀ (il : List Nat) (i : Int) (pre rest : List Nat) (syms : List (List Nat)),
      IntEnc il i → i < -(syms.length : Int) →
      Marshal._read_symbol_link ⟨pre ++ il ++ rest, (pre.length : Int), syms⟩ =
        .error .indexError) := by
  refine ⟨?_, ?_, ?_, ?_⟩
  · intro il i pre rest syms hil hge
    simp only [Marshal._read_symbol_link]
    rw [read_int_frame hil pre rest syms]
    simp only [Bind.bind, Except.bind]
    rw [if_pos (show i ≥ (syms.length : Int) by omega)]
  · intro il i pre rest syms hil h0 hlt
    exact read_symbol_link_frame hil h0 pre rest syms hlt
  · intro il i pre rest syms hil hge hneg
    simp only [Marshal._read_symbol_link]
    rw [read_int_frame hil pre rest syms]
    simp only [Bind.bind, Except.bind]
    rw [if_neg (show ¬ i ≥ (syms.length : Int) by omega)]
    simp only [pyIndex]
    rw [if_pos (show i < 0 by omega),
      if_neg (show ¬ i + (syms.length : Int) < 0 by omega)]
    rw [get?_eq_getD syms (i + (syms.length : Int)).toNat [] (by omega)]
  · intro il i pre rest syms hil hlt
    simp only [Marshal._read_symbol_link]
    rw [read_int_frame hil pre rest syms]
    simp only [Bind.bind, Except.bind]
    have hlen0 : (0 : Int) ≤ (syms.length : Int) := by positivity
    rw [if_neg (show ¬ i ≥ (syms.length : Int) by omega)]
    simp only [pyIndex]
    rw [if_pos (show i < 0 by omega),
      if_pos (show i + (syms.length : Int) < 0 by omega)]

/-- C4 amended witness: the link encoding `[6]` (index `1`) against an
empty symbol table fails with `InvalidSymbolLink 1`. -/
theorem symbol_link_amended_witness :
    Marshal._read_symbol_link ⟨[6], 0, []⟩ = .error (.invalidSymbolLink 1) := by
  have hil : IntEnc [6] 1 := by
    have := IntEnc.posImm 6 (by norm_num) (by norm_num)
    norm_num at this
    exact this
  have h := symbol_link_amended.1 [6] 1 [] [] [] hil (by norm_num)
  simpa using h

/-- C5 counterexample: an ARRAY whose decoded element count is `-1` (byte
`250`) does not fail — `range` of a negative count iterates zero times, so
the decode silently coerces the malformed count to an empty Sequence. -/
theorem negative_count_counterexample :
    Marshal.load 9 [4, 8, 91, 250] = .ok (.seq []) ∧
    ¬ (∃ e, Marshal.load 9 [4, 8, 91, 250] = .error e) := by
  constructor
  · rfl
  · rintro ⟨e, h⟩
    have h2 : Marshal.load 9 [4, 8, 91, 250] = .ok (.seq []) := rfl
    rw [h2] at h
    exact absurd h (by simp)

/-- C5 amended: a negative decoded element / pair count is silently treated
as zero: the ARRAY body with count `-1` decodes to the empty Sequence, the
HASH body with count `-1` to the empty Mapping, and in general
`_read_array` / `_read_hash` return an empty result whenever the decoded
count is negative, with no error. -/
theorem negative_count_amended :
    Marshal.load 9 [4, 8, 91, 250] = .ok (.seq []) ∧
    Marshal.load 9 [4, 8, 123, 250] = .ok (.dict []) ∧
    (∀ (il : List Nat) (c : Int) (rd : MState → Except PyErr (RValue × MState))
       (pre rest : List Nat) (syms : List (List Nat)), IntEnc il c → c < 0 →
      Marshal._read_array rd ⟨pre ++ il ++ rest, (pre.length : Int), syms⟩ =
        .ok ([], ⟨pre ++ il ++ rest, (pre.length : Int) + il.length, syms⟩) ∧
      Marshal._read_hash rd ⟨pre ++ il ++ rest, (pre.length : Int), syms⟩ =
        .ok ([], ⟨pre ++ il ++ rest, (pre.length : Int) + il.length, syms⟩)) := by
  refine ⟨rfl, rfl, ?_⟩
  intro il c rd pre rest syms hil hc
  have h0 : c.toNat = 0 := by omega
  constructor
  · simp only [Marshal._read_array]
    rw [read_int_frame hil pre rest syms]
    simp only [Bind.bind, Except.bind, h0, Marshal.readArrayLoop]
  · simp only [Marshal._read_hash]
    rw [read_int_frame hil pre rest syms]
    simp only [Bind.bind, Except.bind, h0, Marshal.readHashLoop]

/-- C5 amended witness: the count encoding `[250]` (value `-1`) makes the
array production return the empty list with no error. -/
theorem negative_count_amended_witness :
    Marshal._read_array (fun st => Marshal._read 1 st) ⟨[250], 0, []⟩ =
      .ok ([], ⟨[250], 1, []⟩) := by
  have h := (negative_count_amended.2.2 [250] ((250 : Int) - 251)
    (fun st => Marshal._read 1 st) [] [] []
    (IntEnc.negImm 250 (by norm_num) (by norm_num)) (by norm_num)).1
  simpa using h

end RailsCompat
